import Mathlib

/-!
Verification of the VTC fair-scheduling core of `llm-fair-scheduling`.

Shallow embedding of:
* `vidur/scheduler/replica_scheduler/vtc_replica_scheduler.py` (non-chunked VTC scheduler),
* `vidur/scheduler/replica_scheduler/vtc_sarathi_replica_scheduler.py` (chunked-prefill VTC scheduler),
* `vidur/utils/fair_service_calculator.py`.

Python floats are modelled as `ℚ`, Python ints as `ℤ`/`ℕ`, dicts as association
lists (first-match lookup, append on new key — matching dict semantics for the
operations the code performs), and the external collaborators (`can_allocate`,
`_get_request_next_num_tokens`) as function parameters, per their contracts.
-/

namespace VTCSched

/-- The `Request` entity as consumed by the schedulers: identity, client,
arrival time, token counts, and the per-phase service-cost functions
`get_prefill_token_service_cost` / `get_decode_token_service_cost`. -/
structure Request where
  id : ℕ
  client_id : ℕ
  arrived_at : ℚ
  num_prefill_tokens : ℤ
  num_processed_tokens : ℤ
  num_decode_tokens : ℤ
  prefillCost : ℤ → ℚ
  decodeCost : ℚ

instance : Inhabited Request :=
  ⟨⟨0, 0, 0, 0, 0, 0, fun _ => 0, 0⟩⟩

/-- Modelled from the spec: `is_prefill_complete` is "a derived flag" of the
external Request entity — prefill is complete once all prefill tokens have
been processed. -/
def Request.prefillDone (r : Request) : Bool :=
  r.num_prefill_tokens ≤ r.num_processed_tokens

/-- Modelled from the spec: `restart()` "resets processed-token progress". -/
def Request.restart (r : Request) : Request :=
  { r with num_processed_tokens := 0 }

/-- The virtual-counter ledger `self._virtual_counters : Dict[int, float]`,
as an association list in dict insertion order. -/
abbrev VCounters := List (ℕ × ℚ)

/-- `self._virtual_counters.get(client_id, 0.0)`. -/
def vcGet (vc : VCounters) (c : ℕ) : ℚ :=
  (vc.lookup c).getD 0

/-- `min(self._virtual_counters.values())` (0 for the empty ledger, where the
code takes the other branch). -/
def vcMin : VCounters → ℚ
  | [] => 0
  | p :: ps => ps.foldl (fun m q => min m q.2) p.2

/-- `_update_counter_on_arrival` (identical in both scheduler classes):
no-op for a tracked client, otherwise initialize to the minimum existing
counter, or `0.0` when the ledger is empty. -/
def updateCounterOnArrival (vc : VCounters) (c : ℕ) : VCounters :=
  if (vc.lookup c).isSome then vc
  else vc ++ [(c, vcMin vc)]

/-- `d[c] = d.get(c, 0.0) + s` on an association list: add to the first
binding of `c`, or append `(c, s)` when `c` is unbound. Used both for the
per-batch `client_service` dict and for the counters themselves. -/
def vcAdd : VCounters → ℕ → ℚ → VCounters
  | [], c, s => [(c, s)]
  | (c', s') :: rest, c, s =>
    if c' = c then (c', s' + s) :: rest else (c', s') :: vcAdd rest c s

/-- Per-request service cost of `VTCReplicaScheduler._update_counter_on_batch_completion`:
if the request was still in prefill when the round started
(`tokens_before < num_prefill_tokens`), the whole round is charged as prefill,
otherwise wholly as decode. -/
def vtcServiceCost (r : Request) (n : ℤ) : ℚ :=
  let tokens_before := r.num_processed_tokens - n
  if tokens_before < r.num_prefill_tokens then r.prefillCost n
  else (n : ℚ) * r.decodeCost

/-- Per-request service cost of `VTCSarathiReplicaScheduler._update_counter_on_batch_completion`:
the token-accounting split at the prefill/decode boundary. -/
def sarathiServiceCost (r : Request) (n : ℤ) : ℚ :=
  let tokens_before := r.num_processed_tokens - n
  let prefill_tokens_remaining := max (r.num_prefill_tokens - tokens_before) 0
  let prefill_tokens := min prefill_tokens_remaining n
  let decode_tokens := n - prefill_tokens
  r.prefillCost prefill_tokens + r.decodeCost * (decode_tokens : ℚ)

/-- Replica-scheduler configuration fields read by the two schedulers. -/
structure SchedConfig where
  batch_size_cap : ℕ
  max_tokens_in_batch : ℤ
  max_micro_batch_size : ℕ
  client_zero_damping : ℚ
  client_one_damping : ℚ
  replica_id : ℕ

/-- Damping-factor selection of the chunked scheduler:
`client_zero_damping if client_id == 0 else client_one_damping`. -/
def dampingFor (cfg : SchedConfig) (c : ℕ) : ℚ :=
  if c = 0 then cfg.client_zero_damping else cfg.client_one_damping

/-- `VTCReplicaScheduler._update_counter_on_batch_completion`: accumulate each
request's cost into the per-client `client_service` dict, then add each
client's total to its virtual counter. -/
def vtcUpdateOnBatchCompletion (vc : VCounters) (batch : List (Request × ℤ)) : VCounters :=
  let client_service :=
    batch.foldl (fun acc p => vcAdd acc p.1.client_id (vtcServiceCost p.1 p.2)) []
  client_service.foldl (fun v p => vcAdd v p.1 p.2) vc

/-- `VTCSarathiReplicaScheduler._update_counter_on_batch_completion`: the
split cost divided by the client's damping factor, accumulated per client,
then added to the counters. -/
def sarathiUpdateOnBatchCompletion (cfg : SchedConfig) (vc : VCounters)
    (batch : List (Request × ℤ)) : VCounters :=
  let client_service :=
    batch.foldl
      (fun acc p =>
        vcAdd acc p.1.client_id (sarathiServiceCost p.1 p.2 / dampingFor cfg p.1.client_id))
      []
  client_service.foldl (fun v p => vcAdd v p.1 p.2) vc

/-! ### `FairServiceCalculator` (`vidur/utils/fair_service_calculator.py`) -/

/-- Configuration of `FairServiceCalculator`. -/
structure FairServiceCalculatorConfig where
  prefill_cost_factor : ℚ
  decode_cost_factor : ℚ

/-- The calculator object: `__init__` stores only `_config`; the Python object
has no `request` attribute, modelled as an `Option` slot that no code path
fills. -/
structure FairServiceCalculator where
  config : FairServiceCalculatorConfig
  request : Option Request

/-- `FairServiceCalculator.__init__`: sets `self._config = config` and nothing
else, so the `request` attribute slot stays empty. -/
def FairServiceCalculator.init (config : FairServiceCalculatorConfig) : FairServiceCalculator :=
  ⟨config, none⟩

/-- `FairServiceCalculator.calculate_service_for_request`: the body reads
`self.request` (an `AttributeError` when the attribute was never assigned),
not the `request` parameter. -/
def FairServiceCalculator.calcServiceForRequest (self : FairServiceCalculator)
    (_request : Request) : Except String ℚ :=
  match self.request with
  | none => .error "AttributeError"
  | some r =>
    .ok ((r.num_prefill_tokens : ℚ) * self.config.prefill_cost_factor
      + (r.num_decode_tokens : ℚ) * self.config.decode_cost_factor)

/-! ### Batch-builder embedding

The allocation controller and the per-request chunking function are external
collaborators (`vllm_replica_scheduler.py` / `sarathi_replica_scheduler.py`
base classes and the memory planner); per the spec they are consumed through
the contract `can_allocate` / `allocate` / `free` and
`_get_request_next_num_tokens`.  They are modelled as parameters:
`canAlloc` is pure, `allocate` records the request id in the allocation map,
`free` removes it; the allocation map is the set of request ids currently
holding reserved resources. -/

/-- The ids in `self._allocation_map` (requests holding reservations). -/
abbrev AllocMap := List ℕ

/-- Modelled from the spec: `allocate(request)` reserves capacity for the
request, making it a member of the allocation map. -/
def allocAdd (a : AllocMap) (i : ℕ) : AllocMap :=
  if i ∈ a then a else a ++ [i]

/-- Modelled from the spec: `free(request_id)` releases the reservation. -/
def allocFree (a : AllocMap) (i : ℕ) : AllocMap :=
  a.filter (fun j => j ≠ i)

/-- Python `max` on a (nonempty) list; `0` as the placeholder for `[]`,
where the code never calls it. -/
def listMax : List ℤ → ℤ
  | [] => 0
  | x :: xs => xs.foldl max x

/-- `next(i for i, r in enumerate(queue) if r.id == id)` followed by
`queue.pop(i)`: remove and return the first request with the given id. -/
def popFirstById : List Request → ℕ → Option Request × List Request
  | [], _ => (none, [])
  | r :: rs, i =>
    if r.id = i then (some r, rs)
    else
      let p := popFirstById rs i
      (p.1, r :: p.2)

/-- Counter of the request at position `i` of the queue
(`self._virtual_counters.get(queue[i].client_id, 0.0)`). -/
def counterOfIdx (vc : VCounters) (queue : List Request) (i : ℕ) : ℚ :=
  vcGet vc ((queue.getD i default).client_id)

/-- `sorted(range(len(queue)), key=lambda i: counter(queue[i]))` — a stable
sort of the queue positions by virtual counter (Python's `sorted` is stable;
`insertionSort` is the stable reference sort). -/
def sortedIndices (vc : VCounters) (queue : List Request) : List ℕ :=
  List.insertionSort (fun i j => counterOfIdx vc queue i ≤ counterOfIdx vc queue j)
    (List.range queue.length)

/-- Result of an admission pass: the batch under construction and the
mutated queue / allocation map. -/
structure PassRes where
  reqs : List Request
  toks : List ℤ
  queue : List Request
  alloc : AllocMap

/-- The primary admission pass of `VTCReplicaScheduler._get_next_batch`
(lines 133–176): iterate the counter-sorted positions of the initial queue,
reading the *live* queue at each stored position; skip already-attempted ids;
stop at the micro-batch cap or the allocated-resource cap; *skip* (continue)
a request that cannot be allocated or would exceed the token budget;
otherwise remove it from the queue by id, allocate it and append it. -/
def vtcPrimaryLoop (cfg : SchedConfig) (canAlloc : AllocMap → Request → Bool)
    (nextTokens : Request → ℤ) :
    List ℕ → List Request → AllocMap → List Request → List ℤ → List ℕ → PassRes
  | [], queue, alloc, reqs, toks, _ => ⟨reqs, toks, queue, alloc⟩
  | qidx :: rest, queue, alloc, reqs, toks, attempted =>
    if hq : qidx < queue.length then
      let request := queue.get ⟨qidx, hq⟩
      if request.id ∈ attempted then
        vtcPrimaryLoop cfg canAlloc nextTokens rest queue alloc reqs toks attempted
      else
        let attempted' := request.id :: attempted
        if reqs.length = cfg.max_micro_batch_size then ⟨reqs, toks, queue, alloc⟩
        else if alloc.length = cfg.batch_size_cap then ⟨reqs, toks, queue, alloc⟩
        else
          let next_num_tokens := nextTokens request
          if ! canAlloc alloc request then
            vtcPrimaryLoop cfg canAlloc nextTokens rest queue alloc reqs toks attempted'
          else
            let new_toks := toks ++ [next_num_tokens]
            if (new_toks.length : ℤ) * listMax new_toks > cfg.max_tokens_in_batch then
              vtcPrimaryLoop cfg canAlloc nextTokens rest queue alloc reqs toks attempted'
            else
              match popFirstById queue request.id with
              | (some popped, queue') =>
                vtcPrimaryLoop cfg canAlloc nextTokens rest queue'
                  (allocAdd alloc popped.id) (reqs ++ [popped]) new_toks attempted'
              | (none, _) => ⟨reqs, toks, queue, alloc⟩
    else
      vtcPrimaryLoop cfg canAlloc nextTokens rest queue alloc reqs toks attempted

/-- Result of the eviction loop: whether allocation eventually succeeded,
the surviving preempted pool, allocation map, waiting queue, and the trace
of `free(id)` calls made. -/
structure EvictRes where
  ok : Bool
  preempted : List Request
  alloc : AllocMap
  queue : List Request
  freed : List ℕ

/-- The inner eviction loop (`while not self._can_allocate_request(request)`)
shared verbatim by both schedulers: while the popped request cannot be
allocated, evict the tail of the preempted pool — `restart()` it, `free` it,
reinsert it at the head of the waiting queue — and retry; when no victim
remains, restart/free/requeue the request itself and stop (`ok = false`). -/
def evictInner (canAlloc : AllocMap → Request → Bool) (request : Request) :
    List Request → AllocMap → List Request → List ℕ → EvictRes
  | preempted, alloc, queue, freed =>
    if canAlloc alloc request then ⟨true, preempted, alloc, queue, freed⟩
    else
      match preempted with
      | [] =>
        ⟨false, [], allocFree alloc request.id, request.restart :: queue,
          freed ++ [request.id]⟩
      | p :: ps =>
        let victim := (p :: ps).getLast (List.cons_ne_nil p ps)
        evictInner canAlloc request (p :: ps).dropLast (allocFree alloc victim.id)
          (victim.restart :: queue) (freed ++ [victim.id])
  termination_by preempted _ _ _ => preempted.length
  decreasing_by
    simp only [List.length_dropLast, List.length_cons]
    exact Nat.lt_succ_self _

/-- The `for idx, request in enumerate(...)` argmin scan: keep the first
index whose key is strictly below the running best. -/
def scanMinAux {α : Type} (ltB : α → α → Bool) (key : Request → α) :
    List Request → ℕ → α → ℕ → ℕ
  | [], _, _, best => best
  | r :: rs, idx, bestKey, best =>
    if ltB (key r) bestKey then scanMinAux ltB key rs (idx + 1) (key r) idx
    else scanMinAux ltB key rs (idx + 1) bestKey best

/-- Index selected by the argmin scan (`min_counter = inf` start, so the
head is always taken first); `none` on an empty list. -/
def scanMinIdx {α : Type} (ltB : α → α → Bool) (key : Request → α) :
    List Request → Option ℕ
  | [] => none
  | r :: rs => some (scanMinAux ltB key rs 1 (key r) 0)

/-- Strict `<` on `ℚ` as a scan comparison. -/
def ratLtB (a b : ℚ) : Bool := decide (a < b)

/-- The min-counter scan of the non-chunked decode path (lines 189–196). -/
def firstMinCounterIdx (vc : VCounters) (l : List Request) : Option ℕ :=
  scanMinIdx ratLtB (fun r => vcGet vc r.client_id) l

/-- Result of the decode/preempted pass. -/
structure DecodeRes where
  reqs : List Request
  toks : List ℤ
  preempted : List Request
  alloc : AllocMap
  queue : List Request
  freed : List ℕ

theorem evictInner_preempted_length_le (canAlloc : AllocMap → Request → Bool)
    (request : Request) (preempted : List Request) (alloc : AllocMap)
    (queue : List Request) (freed : List ℕ) :
    (evictInner canAlloc request preempted alloc queue freed).preempted.length ≤
      preempted.length := by
  induction preempted, alloc, queue, freed using evictInner.induct canAlloc request with
  | case1 => rw [evictInner.eq_def]; simp_all
  | case2 => rw [evictInner.eq_def]; simp_all
  | case3 p a q f h p' =>
    rename_i ih
    rw [evictInner.eq_def]
    dsimp only
    rw [if_neg f]
    exact le_trans ih
      (by simp only [List.length_dropLast, List.length_cons]; omega)

theorem scanMinAux_lt {α : Type} (ltB : α → α → Bool) (key : Request → α) :
    ∀ (l : List Request) (idx : ℕ) (bestKey : α) (best : ℕ), best < idx →
      scanMinAux ltB key l idx bestKey best < idx + l.length := by
  intro l
  induction l with
  | nil => intro idx bestKey best h; simpa [scanMinAux] using h
  | cons r rs ih =>
    intro idx bestKey best h
    rw [scanMinAux]
    split
    · have := ih (idx + 1) (key r) idx (Nat.lt_succ_self idx)
      simpa [Nat.add_comm, Nat.add_assoc, Nat.add_left_comm] using this
    · have := ih (idx + 1) bestKey best (Nat.lt_succ_of_lt h)
      simpa [Nat.add_comm, Nat.add_assoc, Nat.add_left_comm] using this

theorem scanMinIdx_lt {α : Type} (ltB : α → α → Bool) (key : Request → α)
    (l : List Request) (i : ℕ) (h : scanMinIdx ltB key l = some i) :
    i < l.length := by
  cases l with
  | nil => simp [scanMinIdx] at h
  | cons r rs =>
    simp only [scanMinIdx, Option.some.injEq] at h
    subst h
    have h2 := scanMinAux_lt ltB key rs 1 (key r) 0 Nat.one_pos
    simp only [List.length_cons]
    omega

theorem firstMinCounterIdx_lt (vc : VCounters) (l : List Request) (i : ℕ)
    (h : firstMinCounterIdx vc l = some i) : i < l.length :=
  scanMinIdx_lt _ _ l i h

/-- The preempted/decode pass of `VTCReplicaScheduler._get_next_batch`
(lines 185–219): while preempted requests remain and the micro-batch cap is
not reached, select the min-counter preempted request, pop it, run the
eviction loop; on allocation success, allocate it and append it with its
next token count. -/
def vtcDecodeLoop (cfg : SchedConfig) (canAlloc : AllocMap → Request → Bool)
    (nextTokens : Request → ℤ) (vc : VCounters) :
    List Request → AllocMap → List Request → List Request → List ℤ → List ℕ → DecodeRes
  | preempted, alloc, queue, reqs, toks, freed =>
    match hpre : preempted with
    | [] => ⟨reqs, toks, preempted, alloc, queue, freed⟩
    | _ :: _ =>
      if reqs.length = cfg.max_micro_batch_size then
        ⟨reqs, toks, preempted, alloc, queue, freed⟩
      else
        match hidx : firstMinCounterIdx vc preempted with
        | none => ⟨reqs, toks, preempted, alloc, queue, freed⟩
        | some idx =>
          let request := preempted.getD idx default
          let rest := preempted.eraseIdx idx
          let er := evictInner canAlloc request rest alloc queue freed
          if er.ok then
            vtcDecodeLoop cfg canAlloc nextTokens vc er.preempted
              (allocAdd er.alloc request.id) er.queue
              (reqs ++ [request]) (toks ++ [nextTokens request]) er.freed
          else
            vtcDecodeLoop cfg canAlloc nextTokens vc er.preempted er.alloc er.queue
              reqs toks er.freed
  termination_by preempted _ _ _ _ _ => preempted.length
  decreasing_by
    all_goals
      refine lt_of_le_of_lt (evictInner_preempted_length_le _ _ _ _ _ _) ?_
    all_goals
      have hlt := firstMinCounterIdx_lt vc _ _ hidx
      rw [List.length_eraseIdx_of_lt hlt]
      rw [hpre] at hlt ⊢
      omega

/-- The mutable scheduler state the non-chunked `_get_next_batch` reads and
writes: waiting queue, preempted pool, allocation map, virtual counters. -/
structure VTCState where
  queue : List Request
  preempted : List Request
  alloc : AllocMap
  counters : VCounters

/-- `Batch(replica_id, requests, num_tokens)`. -/
structure Batch where
  replica_id : ℕ
  requests : List Request
  num_tokens : List ℤ

/-- `VTCReplicaScheduler._get_next_batch`: the primary (prefill-queue) pass;
if it admitted anything, return that batch, otherwise sort the preempted pool
by arrival time and run the decode pass; return `None` for an empty batch. -/
def vtcGetNextBatch (cfg : SchedConfig) (canAlloc : AllocMap → Request → Bool)
    (nextTokens : Request → ℤ) (st : VTCState) : Option Batch × VTCState :=
  let pr := vtcPrimaryLoop cfg canAlloc nextTokens
    (sortedIndices st.counters st.queue) st.queue st.alloc [] [] []
  if ! pr.reqs.isEmpty then
    (some ⟨cfg.replica_id, pr.reqs, pr.toks⟩,
      ⟨pr.queue, st.preempted, pr.alloc, st.counters⟩)
  else
    let sortedPre :=
      List.insertionSort (fun a b => a.arrived_at ≤ b.arrived_at) st.preempted
    let dr := vtcDecodeLoop cfg canAlloc nextTokens st.counters
      sortedPre pr.alloc pr.queue [] [] []
    if dr.reqs.isEmpty then
      (none, ⟨dr.queue, dr.preempted, dr.alloc, st.counters⟩)
    else
      (some ⟨cfg.replica_id, dr.reqs, dr.toks⟩,
        ⟨dr.queue, dr.preempted, dr.alloc, st.counters⟩)

/-- `VTCReplicaScheduler.add_request`: update the ledger for the arriving
client, then enqueue (queue insertion per the base class, modelled from the
spec: "`add_request` triggers ledger initialization and queue insertion"). -/
def vtcAddRequest (st : VTCState) (r : Request) : VTCState :=
  { st with
    counters := updateCounterOnArrival st.counters r.client_id
    queue := st.queue ++ [r] }

/-! ### Chunked-prefill (Sarathi) scheduler -/

/-- Fairness key `(counter(client_id), arrived_at)`. -/
def keyOf (vc : VCounters) (r : Request) : ℚ × ℚ :=
  (vcGet vc r.client_id, r.arrived_at)

/-- Strict lexicographic `<` on fairness keys (Python tuple `<`). -/
def keyLtB (a b : ℚ × ℚ) : Bool :=
  decide (a.1 < b.1 ∨ (a.1 = b.1 ∧ a.2 < b.2))

/-- Lexicographic `≤` on fairness keys (the order `sorted` with this tuple
key produces). -/
def keyLe (a b : ℚ × ℚ) : Prop :=
  a.1 < b.1 ∨ (a.1 = b.1 ∧ a.2 ≤ b.2)

instance : DecidableRel keyLe := fun a b => by unfold keyLe; exact inferInstance

/-- `VTCSarathiReplicaScheduler._select_next_request`: rank the candidates of
`running_prefills` and the waiting queue jointly by `(counter, arrived_at)`
and take the best (the stable sort of the code makes this the first index
with lexicographically minimal key over `running ++ queue`); pop the winner
from its pool. -/
def sarathiSelect (vc : VCounters) (running queue : List Request) :
    Option (Request × Bool × List Request × List Request) :=
  let cands := running ++ queue
  match scanMinIdx keyLtB (keyOf vc) cands with
  | none => none
  | some i =>
    if i < running.length then
      some (cands.getD i default, true, running.eraseIdx i, queue)
    else
      some (cands.getD i default, false, running, queue.eraseIdx (i - running.length))

theorem sarathiSelect_sizes (vc : VCounters) (running queue : List Request)
    (r : Request) (b : Bool) (running' queue' : List Request)
    (h : sarathiSelect vc running queue = some (r, b, running', queue')) :
    running'.length + queue'.length < running.length + queue.length := by
  unfold sarathiSelect at h
  dsimp only at h
  rcases hscan : scanMinIdx keyLtB (keyOf vc) (running ++ queue) with _ | i
  · rw [hscan] at h; simp at h
  · rw [hscan] at h
    have hi := scanMinIdx_lt keyLtB (keyOf vc) _ _ hscan
    rw [List.length_append] at hi
    by_cases hlt : i < running.length
    · simp only [hlt, if_true, Option.some.injEq, Prod.mk.injEq] at h
      obtain ⟨-, -, h3, h4⟩ := h
      subst h3; subst h4
      rw [List.length_eraseIdx_of_lt hlt]
      omega
    · simp only [hlt, if_false, Option.some.injEq, Prod.mk.injEq] at h
      obtain ⟨-, -, h3, h4⟩ := h
      subst h3; subst h4
      have : i - running.length < queue.length := by omega
      rw [List.length_eraseIdx_of_lt this]
      omega

/-- Result of the first (`while self._preempted_requests`) pass of
`VTCSarathiReplicaScheduler._get_next_batch`. -/
structure SPreRes where
  reqs : List Request
  toks : List ℤ
  skipped : List Request
  running : List Request
  preempted : List Request
  alloc : AllocMap
  queue : List Request
  num_batch_tokens : ℤ
  freed : List ℕ

/-- Lines 120–154: pop preempted requests in order; requests still in prefill
go to `running_prefills`; a zero negotiated chunk defers to `skipped`;
otherwise run the eviction loop and, on success, allocate and append. -/
def sarathiPreLoop (cfg : SchedConfig) (canAlloc : AllocMap → Request → Bool)
    (nextTokensC : Request → Bool → ℤ → ℤ) (contains_prefill : Bool) :
    List Request → AllocMap → List Request → List Request → List ℤ →
      List Request → List Request → ℤ → List ℕ → SPreRes
  | preempted, alloc, queue, reqs, toks, skipped, running, nbt, freed =>
    match preempted with
    | [] => ⟨reqs, toks, skipped, running, [], alloc, queue, nbt, freed⟩
    | request :: pRest =>
      if reqs.length = cfg.max_micro_batch_size then
        ⟨reqs, toks, skipped, running, request :: pRest, alloc, queue, nbt, freed⟩
      else if ! request.prefillDone then
        sarathiPreLoop cfg canAlloc nextTokensC contains_prefill pRest alloc queue
          reqs toks skipped (running ++ [request]) nbt freed
      else
        let nt := nextTokensC request contains_prefill nbt
        if nt = 0 then
          sarathiPreLoop cfg canAlloc nextTokensC contains_prefill pRest alloc queue
            reqs toks (skipped ++ [request]) running nbt freed
        else
          let er := evictInner canAlloc request pRest alloc queue freed
          if er.ok then
            sarathiPreLoop cfg canAlloc nextTokensC contains_prefill er.preempted
              (allocAdd er.alloc request.id) er.queue
              (reqs ++ [request]) (toks ++ [nt]) skipped running (nbt + nt) er.freed
          else
            sarathiPreLoop cfg canAlloc nextTokensC contains_prefill er.preempted
              er.alloc er.queue reqs toks skipped running nbt er.freed
  termination_by preempted _ _ _ _ _ _ _ _ => preempted.length
  decreasing_by
    · simp
    · simp
    · exact Nat.lt_succ_of_le (evictInner_preempted_length_le _ _ _ _ _ _)
    · exact Nat.lt_succ_of_le (evictInner_preempted_length_le _ _ _ _ _ _)

/-- Result of the second (`while running_prefills or self._request_queue`)
pass of `VTCSarathiReplicaScheduler._get_next_batch`. -/
structure SQRes where
  reqs : List Request
  toks : List ℤ
  skipped : List Request
  running : List Request
  queue : List Request
  alloc : AllocMap
  num_batch_tokens : ℤ
  contains_prefill : Bool

/-- Lines 156–190: while candidates remain and the caps are not hit, select
jointly from `running_prefills` and the waiting queue; a waiting request that
cannot be allocated is reinserted at the queue head and the pass stops; a
zero chunk is deferred to `skipped`; otherwise allocate (waiting requests
only) and append. -/
def sarathiQueueLoop (cfg : SchedConfig) (canAlloc : AllocMap → Request → Bool)
    (nextTokensC : Request → Bool → ℤ → ℤ) (vc : VCounters) :
    List Request → List Request → AllocMap → List Request → List ℤ →
      List Request → Bool → ℤ → SQRes
  | running, queue, alloc, reqs, toks, skipped, contains_prefill, nbt =>
    if running.isEmpty && queue.isEmpty then
      ⟨reqs, toks, skipped, running, queue, alloc, nbt, contains_prefill⟩
    else if alloc.length = cfg.batch_size_cap then
      ⟨reqs, toks, skipped, running, queue, alloc, nbt, contains_prefill⟩
    else if reqs.length = cfg.max_micro_batch_size then
      ⟨reqs, toks, skipped, running, queue, alloc, nbt, contains_prefill⟩
    else
      match hsel : sarathiSelect vc running queue with
      | none => ⟨reqs, toks, skipped, running, queue, alloc, nbt, contains_prefill⟩
      | some (request, is_running, running', queue') =>
        if ! is_running && ! canAlloc alloc request then
          ⟨reqs, toks, skipped, running', request :: queue', alloc, nbt, contains_prefill⟩
        else
          let nt := nextTokensC request contains_prefill nbt
          if nt = 0 then
            sarathiQueueLoop cfg canAlloc nextTokensC vc running' queue' alloc
              reqs toks (skipped ++ [request]) contains_prefill nbt
          else
            let alloc' := if is_running then alloc else allocAdd alloc request.id
            sarathiQueueLoop cfg canAlloc nextTokensC vc running' queue' alloc'
              (reqs ++ [request]) (toks ++ [nt]) skipped
              (contains_prefill || ! request.prefillDone) (nbt + nt)
  termination_by running queue _ _ _ _ _ _ => running.length + queue.length
  decreasing_by
    all_goals exact sarathiSelect_sizes vc _ _ _ _ _ _ hsel

/-- `sorted(pool, key=lambda req: (counter, arrived_at))` — the stable
re-sort of the merged pool by fairness key. -/
def sarathiSortPool (vc : VCounters) (l : List Request) : List Request :=
  List.insertionSort (fun a b => keyLe (keyOf vc a) (keyOf vc b)) l

/-- The mutable state of the chunked scheduler. -/
structure SarathiState where
  queue : List Request
  preempted : List Request
  alloc : AllocMap
  counters : VCounters

/-- `VTCSarathiReplicaScheduler._get_next_batch`: preempted pass, then joint
waiting-queue pass, then the next tick's preempted pool is
`skipped + running_prefills + remaining preempted`, re-sorted by fairness
key; `None` when the batch is empty. -/
def sarathiGetNextBatch (cfg : SchedConfig) (canAlloc : AllocMap → Request → Bool)
    (nextTokensC : Request → Bool → ℤ → ℤ) (st : SarathiState) :
    Option Batch × SarathiState :=
  let r1 := sarathiPreLoop cfg canAlloc nextTokensC false st.preempted st.alloc
    st.queue [] [] [] [] 0 []
  let r2 := sarathiQueueLoop cfg canAlloc nextTokensC st.counters r1.running
    r1.queue r1.alloc r1.reqs r1.toks r1.skipped false r1.num_batch_tokens
  let pool := sarathiSortPool st.counters (r2.skipped ++ r2.running ++ r1.preempted)
  (if r2.reqs.isEmpty then none else some ⟨cfg.replica_id, r2.reqs, r2.toks⟩,
    ⟨r2.queue, pool, r2.alloc, st.counters⟩)

/-- `VTCSarathiReplicaScheduler.add_request`: ledger update plus queue
insertion (queue insertion per the base class, modelled from the spec). -/
def sarathiAddRequest (st : SarathiState) (r : Request) : SarathiState :=
  { st with
    counters := updateCounterOnArrival st.counters r.client_id
    queue := st.queue ++ [r] }

/-! ### Ledger lemmas -/

theorem vcGet_vcAdd_same (vc : VCounters) (c : ℕ) (s : ℚ) :
    vcGet (vcAdd vc c s) c = vcGet vc c + s := by
  induction vc with
  | nil => simp [vcAdd, vcGet, List.lookup]
  | cons p rest ih =>
    obtain ⟨a, b⟩ := p
    by_cases hac : a = c
    · subst hac
      simp [vcAdd, vcGet, List.lookup]
    · rw [vcAdd]
      simp only [hac, if_false]
      have hbeq : (c == a) = false := by
        simp [beq_iff_eq]; exact fun h => hac h.symm
      simp only [vcGet, List.lookup, hbeq] at ih ⊢
      exact ih

theorem vcGet_vcAdd_other (vc : VCounters) (c c' : ℕ) (s : ℚ) (hne : c' ≠ c) :
    vcGet (vcAdd vc c s) c' = vcGet vc c' := by
  induction vc with
  | nil =>
    have hbeq : (c' == c) = false := by simp [beq_iff_eq]; exact hne
    simp [vcAdd, vcGet, List.lookup, hbeq]
  | cons p rest ih =>
    obtain ⟨a, b⟩ := p
    by_cases hac : a = c
    · subst hac
      have hbeq : (c' == a) = false := by simp [beq_iff_eq]; exact hne
      simp [vcAdd, vcGet, List.lookup, hbeq]
    · rw [vcAdd]
      simp only [hac, if_false]
      by_cases hca : c' = a
      · subst hca
        simp [vcGet, List.lookup]
      · have hbeq : (c' == a) = false := by simp [beq_iff_eq]; exact hca
        simp only [vcGet, List.lookup, hbeq] at ih ⊢
        exact ih

theorem vcGet_le_vcAdd (vc : VCounters) (c c' : ℕ) (s : ℚ) (hs : 0 ≤ s) :
    vcGet vc c' ≤ vcGet (vcAdd vc c s) c' := by
  by_cases h : c' = c
  · subst h; rw [vcGet_vcAdd_same]; linarith
  · rw [vcGet_vcAdd_other vc c c' s h]

theorem vcGet_le_foldl_vcAdd (cs : List (ℕ × ℚ)) (vc : VCounters) (c : ℕ)
    (hnn : ∀ p ∈ cs, 0 ≤ p.2) :
    vcGet vc c ≤ vcGet (cs.foldl (fun v p => vcAdd v p.1 p.2) vc) c := by
  induction cs generalizing vc with
  | nil => simp
  | cons p rest ih =>
    simp only [List.foldl_cons]
    refine le_trans (vcGet_le_vcAdd vc p.1 c p.2 (hnn p (by simp))) ?_
    exact ih (vcAdd vc p.1 p.2) (fun q hq => hnn q (by simp [hq]))

theorem vcAdd_nonneg (cs : List (ℕ × ℚ)) (c : ℕ) (s : ℚ)
    (hcs : ∀ p ∈ cs, 0 ≤ p.2) (hs : 0 ≤ s) :
    ∀ p ∈ vcAdd cs c s, 0 ≤ p.2 := by
  induction cs with
  | nil => intro p hp; simp [vcAdd] at hp; subst hp; exact hs
  | cons q rest ih =>
    obtain ⟨a, b⟩ := q
    intro p hp
    rw [vcAdd] at hp
    by_cases hac : a = c
    · simp only [hac, if_true] at hp
      rcases List.mem_cons.mp hp with h1 | h2
      · subst h1
        have hb : (0:ℚ) ≤ b := hcs (a, b) (by simp [hac])
        simpa using add_nonneg hb hs
      · exact hcs p (List.mem_cons_of_mem _ h2)
    · simp only [hac, if_false] at hp
      rcases List.mem_cons.mp hp with h1 | h2
      · subst h1; exact hcs (a, b) (by simp)
      · exact ih (fun q hq => hcs q (List.mem_cons_of_mem _ hq)) p h2

theorem foldl_vcAdd_nonneg {β : Type} (f : β → ℚ) (g : β → ℕ)
    (l : List β) (hnn : ∀ x ∈ l, 0 ≤ f x) :
    ∀ acc, (∀ p ∈ acc, (0:ℚ) ≤ p.2) →
      ∀ p ∈ l.foldl (fun cs x => vcAdd cs (g x) (f x)) acc, 0 ≤ p.2 := by
  induction l with
  | nil => intro acc hacc; simpa using hacc
  | cons x rest ih =>
    intro acc hacc
    simp only [List.foldl_cons]
    exact ih (fun y hy => hnn y (by simp [hy]))
      (vcAdd acc (g x) (f x))
      (vcAdd_nonneg acc (g x) (f x) hacc (hnn x (by simp)))

/-! ### Minimum characterization (`min(values)` of the ledger) -/

theorem foldl_min_le_init (l : List (ℕ × ℚ)) (a : ℚ) :
    l.foldl (fun m q => min m q.2) a ≤ a := by
  induction l generalizing a with
  | nil => simp
  | cons p rest ih =>
    simp only [List.foldl_cons]
    exact le_trans (ih (min a p.2)) (min_le_left a p.2)

theorem foldl_min_le_mem (l : List (ℕ × ℚ)) (a : ℚ) (p : ℕ × ℚ) (hp : p ∈ l) :
    l.foldl (fun m q => min m q.2) a ≤ p.2 := by
  induction l generalizing a with
  | nil => simp at hp
  | cons q rest ih =>
    simp only [List.foldl_cons]
    rcases List.mem_cons.mp hp with h1 | h2
    · subst h1
      exact le_trans (foldl_min_le_init rest (min a p.2)) (min_le_right a p.2)
    · exact ih (a := min a q.2) h2

theorem foldl_min_mem (l : List (ℕ × ℚ)) (a : ℚ) :
    l.foldl (fun m q => min m q.2) a = a ∨
      ∃ p ∈ l, l.foldl (fun m q => min m q.2) a = p.2 := by
  induction l generalizing a with
  | nil => simp
  | cons q rest ih =>
    simp only [List.foldl_cons]
    rcases ih (min a q.2) with h | ⟨p, hp, he⟩
    · rcases min_choice a q.2 with hm | hm
      · left; rw [h, hm]
      · right; exact ⟨q, by simp, by rw [h, hm]⟩
    · right; exact ⟨p, by simp [hp], he⟩

theorem vcMin_le (vc : VCounters) (p : ℕ × ℚ) (hp : p ∈ vc) :
    vcMin vc ≤ p.2 := by
  cases vc with
  | nil => simp at hp
  | cons q rest =>
    rw [vcMin]
    rcases List.mem_cons.mp hp with h1 | h2
    · subst h1; exact foldl_min_le_init rest p.2
    · exact foldl_min_le_mem rest q.2 p h2

theorem vcMin_mem (vc : VCounters) (hne : vc ≠ []) :
    ∃ p ∈ vc, vcMin vc = p.2 := by
  cases vc with
  | nil => exact absurd rfl hne
  | cons q rest =>
    rw [vcMin]
    rcases foldl_min_mem rest q.2 with h | ⟨p, hp, he⟩
    · exact ⟨q, by simp, h⟩
    · exact ⟨p, by simp [hp], he⟩

theorem lookup_append_single_same (vc : VCounters) (c : ℕ) (x : ℚ)
    (h : vc.lookup c = none) : (vc ++ [(c, x)]).lookup c = some x := by
  induction vc with
  | nil => simp [List.lookup]
  | cons p rest ih =>
    obtain ⟨a, b⟩ := p
    rw [List.lookup] at h
    rcases hba : (c == a) with _ | _
    · rw [hba] at h
      simp only [List.cons_append, List.lookup, hba]
      exact ih h
    · rw [hba] at h; simp at h

theorem lookup_append_single_other (vc : VCounters) (c c' : ℕ) (x : ℚ)
    (h : c' ≠ c) : (vc ++ [(c, x)]).lookup c' = vc.lookup c' := by
  induction vc with
  | nil =>
    have hbeq : (c' == c) = false := by simp [beq_iff_eq]; exact h
    simp [List.lookup, hbeq]
  | cons p rest ih =>
    obtain ⟨a, b⟩ := p
    simp only [List.cons_append, List.lookup]
    rcases hba : (c' == a) with _ | _
    · exact ih
    · rfl

/-! ### Claim theorems -/

/-- C7: when `add_request` sees an already-tracked `client_id`, the ledger is
left unchanged; when the `client_id` is new, its counter is initialized to the
minimum of the existing counters (a true lower bound attained by some entry),
or to `0.0` when the ledger is empty, and every other client's entry is
untouched. Both schedulers route `add_request` through this update. -/
theorem c7_arrival_initialization :
    (∀ (st : VTCState) (r : Request),
        (vtcAddRequest st r).counters = updateCounterOnArrival st.counters r.client_id)
    ∧ (∀ (st : SarathiState) (r : Request),
        (sarathiAddRequest st r).counters = updateCounterOnArrival st.counters r.client_id)
    ∧ (∀ (vc : VCounters) (c : ℕ), (vc.lookup c).isSome →
        updateCounterOnArrival vc c = vc)
    ∧ (∀ (vc : VCounters) (c : ℕ), vc.lookup c = none →
        vcGet (updateCounterOnArrival vc c) c = vcMin vc
        ∧ (∀ c', c' ≠ c →
            (updateCounterOnArrival vc c).lookup c' = vc.lookup c')
        ∧ (∀ p ∈ vc, vcMin vc ≤ p.2)
        ∧ (vc = [] → vcMin vc = 0)
        ∧ (vc ≠ [] → ∃ p ∈ vc, vcMin vc = p.2)) := by
  refine ⟨fun st r => rfl, fun st r => rfl, ?_, ?_⟩
  · intro vc c h
    unfold updateCounterOnArrival
    rw [if_pos h]
  · intro vc c h
    have hnone : (vc.lookup c).isSome = false := by rw [h]; rfl
    constructor
    · unfold updateCounterOnArrival
      rw [if_neg (by simp [hnone])]
      unfold vcGet
      rw [lookup_append_single_same vc c (vcMin vc) h]
      rfl
    constructor
    · intro c' hc'
      unfold updateCounterOnArrival
      rw [if_neg (by simp [hnone])]
      exact lookup_append_single_other vc c c' (vcMin vc) hc'
    exact ⟨vcMin_le vc, fun he => by rw [he]; rfl, vcMin_mem vc⟩

/-- Witness for C7 at concrete ledgers: client 2 is tracked in `[(2, 3)]`
(no-op); client 7 is new in `[(1, 3), (2, 5)]` (initialized to the minimum 3)
and new in the empty ledger (initialized to 0). -/
theorem c7_arrival_initialization_witness :
    updateCounterOnArrival [(2, 3)] 2 = [(2, 3)]
    ∧ vcGet (updateCounterOnArrival [(1, 3), (2, 5)] 7) 7 = vcMin [(1, 3), (2, 5)]
    ∧ vcMin ([(1, 3), (2, 5)] : VCounters) = 3
    ∧ vcGet (updateCounterOnArrival [] 7) 7 = vcMin []
    ∧ vcMin ([] : VCounters) = 0 := by
  refine ⟨c7_arrival_initialization.2.2.1 [(2, 3)] 2 (by decide), ?_, by decide, ?_, by decide⟩
  · exact (c7_arrival_initialization.2.2.2 [(1, 3), (2, 5)] 7 (by decide)).1
  · exact (c7_arrival_initialization.2.2.2 [] 7 (by decide)).1

theorem vtcUpdate_singleton (vc : VCounters) (r : Request) (n : ℤ) :
    vcGet (vtcUpdateOnBatchCompletion vc [(r, n)]) r.client_id
      = vcGet vc r.client_id + vtcServiceCost r n := by
  unfold vtcUpdateOnBatchCompletion
  simp only [List.foldl_cons, List.foldl_nil, vcAdd]
  exact vcGet_vcAdd_same vc r.client_id (vtcServiceCost r n)

theorem sarathiUpdate_singleton (cfg : SchedConfig) (vc : VCounters) (r : Request) (n : ℤ) :
    vcGet (sarathiUpdateOnBatchCompletion cfg vc [(r, n)]) r.client_id
      = vcGet vc r.client_id + sarathiServiceCost r n / dampingFor cfg r.client_id := by
  unfold sarathiUpdateOnBatchCompletion
  simp only [List.foldl_cons, List.foldl_nil, vcAdd]
  exact vcGet_vcAdd_same vc r.client_id _

/-- C2 counterexample: a straddling round. The request has 5 prefill tokens,
3 already processed before the round, and processes 4 tokens
(`num_processed_tokens = 7` afterwards), with `prefill_token_cost(n) = n` and
`decode_token_cost() = 2`. The token-accounting split gives
`prefill = 2, decode = 2`, so cost `2 + 2·2 = 6`; the non-chunked scheduler
charges the whole round as prefill: `prefill_token_cost(4) = 4 ≠ 6`. -/
theorem c2_counterexample :
    vcGet (vtcUpdateOnBatchCompletion []
        [(⟨1, 0, 0, 5, 7, 0, fun m => (m : ℚ), 2⟩, 4)]) 0 = 4
    ∧ sarathiServiceCost ⟨1, 0, 0, 5, 7, 0, fun m => (m : ℚ), 2⟩ 4 = 6
    ∧ (4 : ℚ) ≠ 6 := by
  refine ⟨?_, ?_, by norm_num⟩
  · norm_num [vtcUpdateOnBatchCompletion, vtcServiceCost, vcAdd, vcGet, List.lookup]
  · unfold sarathiServiceCost
    norm_num

/-- C2 amended: the *chunked* scheduler charges each request the
token-accounting split of the claim, divided by its damping factor; the
*non-chunked* scheduler instead attributes a round wholly to prefill when
`tokens_before < num_prefill_tokens` (charging `prefill_token_cost(num_tokens)`)
and wholly to decode otherwise — the two agree except on rounds straddling
the prefill/decode boundary. -/
theorem c2_amended :
    (∀ (cfg : SchedConfig) (vc : VCounters) (r : Request) (n : ℤ),
        vcGet (sarathiUpdateOnBatchCompletion cfg vc [(r, n)]) r.client_id
          = vcGet vc r.client_id
            + (r.prefillCost (min (max (r.num_prefill_tokens - (r.num_processed_tokens - n)) 0) n)
              + r.decodeCost
                * ((n - min (max (r.num_prefill_tokens - (r.num_processed_tokens - n)) 0) n : ℤ) : ℚ))
              / dampingFor cfg r.client_id)
    ∧ (∀ (vc : VCounters) (r : Request) (n : ℤ),
        r.num_processed_tokens - n < r.num_prefill_tokens →
          vcGet (vtcUpdateOnBatchCompletion vc [(r, n)]) r.client_id
            = vcGet vc r.client_id + r.prefillCost n)
    ∧ (∀ (vc : VCounters) (r : Request) (n : ℤ),
        ¬ r.num_processed_tokens - n < r.num_prefill_tokens →
          vcGet (vtcUpdateOnBatchCompletion vc [(r, n)]) r.client_id
            = vcGet vc r.client_id + (n : ℚ) * r.decodeCost) := by
  refine ⟨?_, ?_, ?_⟩
  · intro cfg vc r n
    rw [sarathiUpdate_singleton]
    rfl
  · intro vc r n h
    rw [vtcUpdate_singleton]
    unfold vtcServiceCost
    rw [if_pos h]
  · intro vc r n h
    rw [vtcUpdate_singleton]
    unfold vtcServiceCost
    rw [if_neg h]

/-- Witness for C2 amended: the straddling request of the counterexample hits
the prefill branch of the non-chunked charge; a pure-decode round
(5 prefill, 10 processed, 2 tokens) hits the decode branch. -/
theorem c2_amended_witness :
    vcGet (vtcUpdateOnBatchCompletion []
        [(⟨1, 0, 0, 5, 7, 0, fun m => (m : ℚ), 2⟩, 4)]) 0
      = vcGet [] 0 + (⟨1, 0, 0, 5, 7, 0, fun m => (m : ℚ), 2⟩ : Request).prefillCost 4
    ∧ vcGet (vtcUpdateOnBatchCompletion []
        [(⟨1, 0, 0, 5, 10, 0, fun m => (m : ℚ), 2⟩, 2)]) 0
      = vcGet [] 0 + ((2 : ℤ) : ℚ) * 2 := by
  constructor
  · exact c2_amended.2.1 [] ⟨1, 0, 0, 5, 7, 0, fun m => (m : ℚ), 2⟩ 4 (by norm_num)
  · exact c2_amended.2.2 [] ⟨1, 0, 0, 5, 10, 0, fun m => (m : ℚ), 2⟩ 2 (by norm_num)

/-- C4 counterexample: with damping factor 2 configured for client 0, the
non-chunked scheduler still charges the undivided cost: the increment is 4
(the full `prefill_token_cost(1) = 4`), not `4 / 2`. -/
theorem c4_counterexample :
    vcGet (vtcUpdateOnBatchCompletion []
        [(⟨0, 0, 0, 5, 1, 0, fun m => 4 * (m : ℚ), 1⟩, 1)]) 0 = 4
    ∧ vtcServiceCost ⟨0, 0, 0, 5, 1, 0, fun m => 4 * (m : ℚ), 1⟩ 1 = 4
    ∧ dampingFor ⟨10, 100, 10, 2, 2, 0⟩ 0 = 2
    ∧ (4 : ℚ) ≠ 4 / 2 := by
  refine ⟨?_, ?_, ?_, by norm_num⟩
  · norm_num [vtcUpdateOnBatchCompletion, vtcServiceCost, vcAdd, vcGet, List.lookup]
  · norm_num [vtcServiceCost]
  · norm_num [dampingFor]

/-- C4 amended: only the chunked scheduler divides the service cost by the
client's damping factor (`client_zero_damping` for client 0, otherwise
`client_one_damping`) before charging the ledger; the non-chunked scheduler
adds the cost undivided. -/
theorem c4_amended :
    (∀ (cfg : SchedConfig) (vc : VCounters) (r : Request) (n : ℤ),
        vcGet (sarathiUpdateOnBatchCompletion cfg vc [(r, n)]) r.client_id
          = vcGet vc r.client_id + sarathiServiceCost r n / dampingFor cfg r.client_id)
    ∧ (∀ (vc : VCounters) (r : Request) (n : ℤ),
        vcGet (vtcUpdateOnBatchCompletion vc [(r, n)]) r.client_id
          = vcGet vc r.client_id + vtcServiceCost r n) :=
  ⟨sarathiUpdate_singleton, vtcUpdate_singleton⟩

theorem evictInner_cons_false (canAlloc : AllocMap → Request → Bool)
    (request p : Request) (ps : List Request) (alloc : AllocMap)
    (queue : List Request) (freed : List ℕ)
    (h : canAlloc alloc request = false) :
    evictInner canAlloc request (p :: ps) alloc queue freed
      = evictInner canAlloc request (p :: ps).dropLast
          (allocFree alloc ((p :: ps).getLast (List.cons_ne_nil p ps)).id)
          (((p :: ps).getLast (List.cons_ne_nil p ps)).restart :: queue)
          (freed ++ [((p :: ps).getLast (List.cons_ne_nil p ps)).id]) := by
  rw [evictInner.eq_def]
  dsimp only
  rw [if_neg (by simp [h])]

theorem evictInner_freed_aux (canAlloc : AllocMap → Request → Bool) (request : Request) :
    ∀ (preempted : List Request) (alloc : AllocMap) (queue : List Request)
      (freed : List ℕ),
      ((request :: preempted).map Request.id).Nodup →
      ∃ l, (evictInner canAlloc request preempted alloc queue freed).freed = freed ++ l
        ∧ l.Nodup
        ∧ ∀ i ∈ l, i ∈ (request :: preempted).map Request.id := by
  intro preempted alloc queue freed
  induction preempted, alloc, queue, freed using evictInner.induct canAlloc request with
  | case1 p a q f hc =>
    intro _
    rw [evictInner.eq_def]
    dsimp only
    rw [if_pos hc]
    exact ⟨[], by simp, by simp, by simp⟩
  | case2 a q f hc =>
    intro _
    rw [evictInner.eq_def]
    dsimp only
    rw [if_neg (by simp [hc])]
    exact ⟨[request.id], rfl, by simp, by simp⟩
  | case3 a q f hc hd tl =>
    rename_i ih
    intro hnd
    rw [evictInner_cons_false canAlloc request hd tl a q f (by simpa using hc)]
    set victim := (hd :: tl).getLast (List.cons_ne_nil hd tl) with hvict
    have hsplit : (hd :: tl).dropLast ++ [victim] = hd :: tl :=
      List.dropLast_append_getLast (List.cons_ne_nil hd tl)
    have hnd' : ((request :: (hd :: tl).dropLast).map Request.id).Nodup := by
      have : ((request :: ((hd :: tl).dropLast ++ [victim])).map Request.id).Nodup := by
        rw [hsplit]; exact hnd
      simp only [List.map_cons, List.map_append, List.nodup_cons, List.mem_append,
        List.nodup_append] at this ⊢
      tauto
    obtain ⟨l, hl, hlnd, hlmem⟩ := ih hnd'
    refine ⟨victim.id :: l, ?_, ?_, ?_⟩
    · rw [hl]; simp
    · rw [List.nodup_cons]
      constructor
      · intro hmem
        have hmem' : victim.id = request.id ∨
            victim.id ∈ ((hd :: tl).dropLast).map Request.id := by
          have := hlmem victim.id hmem
          rw [List.map_cons, List.mem_cons] at this
          exact this
        rcases hmem' with h1 | h2
        · -- victim.id = request.id contradicts Nodup of (request :: preempted)
          have hvmem : victim.id ∈ (hd :: tl).map Request.id := by
            refine List.mem_map.mpr ⟨victim, ?_, rfl⟩
            exact List.getLast_mem (List.cons_ne_nil hd tl)
          have : request.id ∉ (hd :: tl).map Request.id := by
            have := hnd
            rw [List.map_cons, List.nodup_cons] at this
            exact this.1
          exact this (h1 ▸ hvmem)
        · -- victim.id in dropLast ids contradicts Nodup of (hd :: tl) ids
          have hnd2 : ((hd :: tl).map Request.id).Nodup := by
            have := hnd
            rw [List.map_cons, List.nodup_cons] at this
            exact this.2
          have : (((hd :: tl).dropLast ++ [victim]).map Request.id).Nodup := by
            rw [hsplit]; exact hnd2
          simp only [List.map_append, List.nodup_append] at this
          have hdisj := this.2.2
          rcases List.mem_map.mp h2 with ⟨x, hx, hxid⟩
          exact hdisj (List.mem_map.mpr ⟨x, hx, hxid⟩) (by simp)
      · exact hlnd
    · intro i hi
      rcases List.mem_cons.mp hi with h1 | h2
      · subst h1
        refine List.mem_cons_of_mem _ ?_
        refine List.mem_map.mpr ⟨victim, ?_, rfl⟩
        exact List.getLast_mem (List.cons_ne_nil hd tl)
      · have hmem' : i = request.id ∨ i ∈ ((hd :: tl).dropLast).map Request.id := by
          have := hlmem i h2
          rw [List.map_cons, List.mem_cons] at this
          exact this
        rcases hmem' with h3 | h4
        · subst h3; simp
        · refine List.mem_cons_of_mem _ ?_
          rcases List.mem_map.mp h4 with ⟨x, hx, hxid⟩
          exact List.mem_map.mpr ⟨x, List.dropLast_subset _ hx, hxid⟩

/-- C8: whenever allocation of the popped preempted request fails inside the
eviction loop (shared verbatim by both schedulers): with victims remaining,
the tail (least-favored) one is evicted — restarted (progress reset to 0),
freed exactly once (one `free` event is appended to the trace), reinserted at
the head of the waiting queue — and allocation is retried for the original
request; with no victim remaining, the original request itself is restarted,
freed once, requeued at the head, and the loop reports failure with an empty
preempted pool, upon which the decode pass stops. Over a whole run, no id is
ever freed twice (the trace is duplicate-free when the request ids are). -/
theorem c8_eviction_discipline :
    (∀ (canAlloc : AllocMap → Request → Bool) (request victim : Request)
        (ps : List Request) (alloc : AllocMap) (queue : List Request)
        (freed : List ℕ),
        canAlloc alloc request = false →
          evictInner canAlloc request (ps ++ [victim]) alloc queue freed
            = evictInner canAlloc request ps (allocFree alloc victim.id)
                (victim.restart :: queue) (freed ++ [victim.id])
          ∧ victim.restart.num_processed_tokens = 0
          ∧ (freed ++ [victim.id]).count victim.id = freed.count victim.id + 1)
    ∧ (∀ (canAlloc : AllocMap → Request → Bool) (request : Request)
        (alloc : AllocMap) (queue : List Request) (freed : List ℕ),
        canAlloc alloc request = false →
          evictInner canAlloc request [] alloc queue freed
            = ⟨false, [], allocFree alloc request.id, request.restart :: queue,
                freed ++ [request.id]⟩
          ∧ request.restart.num_processed_tokens = 0)
    ∧ (∀ (cfg : SchedConfig) (canAlloc : AllocMap → Request → Bool)
        (nextTokens : Request → ℤ) (vc : VCounters) (alloc : AllocMap)
        (queue reqs : List Request) (toks : List ℤ) (freed : List ℕ),
        vtcDecodeLoop cfg canAlloc nextTokens vc [] alloc queue reqs toks freed
          = ⟨reqs, toks, [], alloc, queue, freed⟩)
    ∧ (∀ (canAlloc : AllocMap → Request → Bool) (request : Request)
        (preempted : List Request) (alloc : AllocMap) (queue : List Request),
        ((request :: preempted).map Request.id).Nodup →
          (evictInner canAlloc request preempted alloc queue []).freed.Nodup) := by
  refine ⟨?_, ?_, ?_, ?_⟩
  · intro canAlloc request victim ps alloc queue freed h
    refine ⟨?_, rfl, by simp⟩
    cases ps with
    | nil =>
      rw [List.nil_append]
      rw [evictInner_cons_false canAlloc request victim [] alloc queue freed h]
      simp [List.getLast_singleton]
    | cons a as =>
      rw [List.cons_append]
      rw [evictInner_cons_false canAlloc request a (as ++ [victim]) alloc queue freed h]
      have hlast : (a :: (as ++ [victim])).getLast (List.cons_ne_nil _ _) = victim := by
        have h1 : ((a :: as) ++ [victim]).getLast (by simp) = victim :=
          List.getLast_concat _
        simpa using h1
      have hdrop : (a :: (as ++ [victim])).dropLast = a :: as := by
        have h1 : ((a :: as) ++ [victim]).dropLast = a :: as := List.dropLast_concat
        simpa using h1
      rw [hlast, hdrop]
  · intro canAlloc request alloc queue freed h
    refine ⟨?_, rfl⟩
    rw [evictInner.eq_def]
    dsimp only
    rw [if_neg (by simp [h])]
  · intro cfg canAlloc nextTokens vc alloc queue reqs toks freed
    rw [vtcDecodeLoop.eq_def]
  · intro canAlloc request preempted alloc queue hnd
    obtain ⟨l, hl, hlnd, -⟩ :=
      evictInner_freed_aux canAlloc request preempted alloc queue [] hnd
    rw [hl]
    simpa using hlnd

/-- Witness for C8 at a concrete scenario: allocation always fails; the
preempted pool `[v]` has its tail `v` (id 5, 9 tokens of progress) evicted —
restarted, freed once, requeued at the head — and with the pool `[]` the
original request (id 7) is itself restarted, freed, requeued, stopping the
pass; the decode loop on an empty pool returns its inputs; the freed trace of
a run with distinct ids 7, 5 has no duplicates. -/
theorem c8_eviction_discipline_witness :
    (evictInner (fun _ _ => false) ⟨7, 0, 0, 4, 2, 0, fun _ => 0, 0⟩
        ([] ++ [⟨5, 1, 0, 6, 9, 0, fun _ => 0, 0⟩]) [5, 7] [] []
      = evictInner (fun _ _ => false) ⟨7, 0, 0, 4, 2, 0, fun _ => 0, 0⟩ []
          (allocFree [5, 7] 5)
          ((⟨5, 1, 0, 6, 9, 0, fun _ => 0, 0⟩ : Request).restart :: []) ([] ++ [5]))
    ∧ (⟨5, 1, 0, 6, 9, 0, fun _ => 0, 0⟩ : Request).restart.num_processed_tokens = 0
    ∧ (evictInner (fun _ _ => false) ⟨7, 0, 0, 4, 2, 0, fun _ => 0, 0⟩ [] [7] [] []
        = ⟨false, [], allocFree [7] 7,
            (⟨7, 0, 0, 4, 2, 0, fun _ => 0, 0⟩ : Request).restart :: [], [] ++ [7]⟩)
    ∧ vtcDecodeLoop ⟨8, 100, 8, 1, 1, 0⟩ (fun _ _ => false) (fun _ => 1) [] [] [3] [] [] [] []
        = ⟨[], [], [], [3], [], []⟩
    ∧ (evictInner (fun _ _ => false) ⟨7, 0, 0, 4, 2, 0, fun _ => 0, 0⟩
        [⟨5, 1, 0, 6, 9, 0, fun _ => 0, 0⟩] [5, 7] [] []).freed.Nodup := by
  refine ⟨?_, ?_, ?_, ?_, ?_⟩
  · exact (c8_eviction_discipline.1 (fun _ _ => false) _ _ [] [5, 7] [] [] rfl).1
  · exact (c8_eviction_discipline.1 (fun _ _ => false)
      ⟨7, 0, 0, 4, 2, 0, fun _ => 0, 0⟩ _ [] [5, 7] [] [] rfl).2.1
  · exact (c8_eviction_discipline.2.1 (fun _ _ => false) _ [7] [] [] rfl).1
  · exact c8_eviction_discipline.2.2.1 ⟨8, 100, 8, 1, 1, 0⟩ (fun _ _ => false)
      (fun _ => 1) [] [3] [] [] [] []
  · exact c8_eviction_discipline.2.2.2 (fun _ _ => false) _ _ [5, 7] [] (by decide)

theorem keyLtB_irrefl (a : ℚ × ℚ) : keyLtB a a = false := by
  simp only [keyLtB, decide_eq_false_iff_not]
  push_neg
  exact ⟨le_refl _, fun _ => le_refl _⟩

theorem keyLtB_asymm (a b : ℚ × ℚ) (h : keyLtB a b = true) : keyLtB b a = false := by
  simp only [keyLtB, decide_eq_true_eq] at h
  simp only [keyLtB, decide_eq_false_iff_not]
  push_neg
  rcases h with h1 | ⟨h2, h3⟩
  · exact ⟨by linarith, fun he => by linarith⟩
  · exact ⟨by linarith [h2.le], fun _ => by linarith⟩

theorem keyLtB_trans (a b c : ℚ × ℚ) (h1 : keyLtB a b = true)
    (h2 : keyLtB b c = true) : keyLtB a c = true := by
  simp only [keyLtB, decide_eq_true_eq] at h1 h2 ⊢
  rcases h1 with h1 | ⟨h1, h1a⟩ <;> rcases h2 with h2 | ⟨h2, h2a⟩
  · left; linarith
  · left; linarith
  · left; linarith
  · right; exact ⟨by linarith, by linarith⟩

theorem keyLe_iff_not_ltB (a b : ℚ × ℚ) : keyLe a b ↔ keyLtB b a = false := by
  simp only [keyLe, keyLtB, decide_eq_false_iff_not]
  constructor
  · intro h
    push_neg
    rcases h with h1 | ⟨h2, h3⟩
    · exact ⟨by linarith, fun he => by linarith⟩
    · exact ⟨by linarith [h2.le], fun _ => by linarith⟩
  · intro h
    push_neg at h
    rcases lt_trichotomy a.1 b.1 with h1 | h1 | h1
    · exact Or.inl h1
    · exact Or.inr ⟨h1, h.2 h1.symm⟩
    · exact absurd h1 (not_lt.mpr h.1)

/-- The argmin scan selects an element whose key is not beaten by any
element of the list (for an asymmetric, transitive comparison). -/
theorem scanMinAux_spec {α : Type} (ltB : α → α → Bool)
    (hasym : ∀ a b, ltB a b = true → ltB b a = false)
    (htrans : ∀ a b c, ltB a b = true → ltB b c = true → ltB a c = true)
    (key : Request → α) :
    ∀ (l : List Request) (idx : ℕ) (bestKey : α) (best : ℕ),
      (scanMinAux ltB key l idx bestKey best = best
        ∧ ∀ x ∈ l, ltB (key x) bestKey = false)
      ∨ (∃ k, k < l.length
          ∧ scanMinAux ltB key l idx bestKey best = idx + k
          ∧ ltB (key (l.getD k default)) bestKey = true
          ∧ ∀ x ∈ l, ltB (key x) (key (l.getD k default)) = false) := by
  have hirr : ∀ a, ltB a a = false := by
    intro a
    rcases ha : ltB a a with _ | _
    · rfl
    · rw [← ha]; exact hasym a a ha
  intro l
  induction l with
  | nil => intro idx bestKey best; left; exact ⟨rfl, by simp⟩
  | cons r rs ih =>
    intro idx bestKey best
    rw [scanMinAux]
    rcases hcase : ltB (key r) bestKey with _ | _
    · simp only [Bool.false_eq_true, if_false]
      rcases ih (idx + 1) bestKey best with ⟨he, hall⟩ | ⟨k, hk, he, hsel, hall⟩
      · left
        refine ⟨he, ?_⟩
        intro x hx
        rcases List.mem_cons.mp hx with h1 | h2
        · subst h1; exact hcase
        · exact hall x h2
      · right
        refine ⟨k + 1, by simpa using hk, ?_, ?_, ?_⟩
        · rw [he]; omega
        · simpa using hsel
        · intro x hx
          rcases List.mem_cons.mp hx with h1 | h2
          · subst h1
            simp only [List.getD_cons_succ]
            by_contra hx2
            rw [Bool.not_eq_false] at hx2
            have hcontra := htrans _ _ _ hx2 hsel
            simp [hcase] at hcontra
          · simpa using hall x h2
    · simp only [if_true]
      rcases ih (idx + 1) (key r) idx with ⟨he, hall⟩ | ⟨k, hk, he, hsel, hall⟩
      · right
        refine ⟨0, by simp, by simpa using he, by simpa using hcase, ?_⟩
        intro x hx
        rcases List.mem_cons.mp hx with h1 | h2
        · subst h1; simpa using hirr (key x)
        · simpa using hall x h2
      · right
        refine ⟨k + 1, by simpa using hk, ?_, ?_, ?_⟩
        · rw [he]; omega
        · have := htrans _ _ _ (by simpa using hsel) hcase
          simpa using this
        · intro x hx
          rcases List.mem_cons.mp hx with h1 | h2
          · subst h1
            have := hasym _ _ (show ltB (key (rs.getD k default)) (key x) = true by
              simpa using hsel)
            simpa using this
          · simpa using hall x h2

theorem scanMinIdx_min {α : Type} (ltB : α → α → Bool)
    (hasym : ∀ a b, ltB a b = true → ltB b a = false)
    (htrans : ∀ a b c, ltB a b = true → ltB b c = true → ltB a c = true)
    (key : Request → α) (l : List Request) (i : ℕ)
    (h : scanMinIdx ltB key l = some i) :
    ∀ x ∈ l, ltB (key x) (key (l.getD i default)) = false := by
  have hirr : ∀ a, ltB a a = false := by
    intro a
    rcases ha : ltB a a with _ | _
    · rfl
    · rw [← ha]; exact hasym a a ha
  cases l with
  | nil => simp [scanMinIdx] at h
  | cons r rs =>
    simp only [scanMinIdx, Option.some.injEq] at h
    rcases scanMinAux_spec ltB hasym htrans key rs 1 (key r) 0 with
      ⟨he, hall⟩ | ⟨k, hk, he, hsel, hall⟩
    · have hi : i = 0 := by rw [← h, he]
      subst hi
      intro x hx
      rcases List.mem_cons.mp hx with h1 | h2
      · subst h1; simpa using hirr (key x)
      · simpa using hall x h2
    · have hi : i = 1 + k := by rw [← h, he]
      subst hi
      intro x hx
      have hgd : (r :: rs).getD (1 + k) default = rs.getD k default := by
        have : 1 + k = k + 1 := by omega
        rw [this]; rfl
      rw [hgd]
      rcases List.mem_cons.mp hx with h1 | h2
      · subst h1; exact hasym _ _ hsel
      · exact hall x h2

/-- The candidate popped by `_select_next_request` has a fairness key that is
lexicographically least among `running_prefills ++ queue`. -/
theorem sarathiSelect_min (vc : VCounters) (running queue : List Request)
    (r : Request) (b : Bool) (running' queue' : List Request)
    (h : sarathiSelect vc running queue = some (r, b, running', queue')) :
    ∀ x ∈ running ++ queue, keyLe (keyOf vc r) (keyOf vc x) := by
  unfold sarathiSelect at h
  dsimp only at h
  rcases hscan : scanMinIdx keyLtB (keyOf vc) (running ++ queue) with _ | i
  · rw [hscan] at h; simp at h
  · rw [hscan] at h
    have hmin := scanMinIdx_min keyLtB keyLtB_asymm keyLtB_trans (keyOf vc)
      (running ++ queue) i hscan
    have hr : r = (running ++ queue).getD i default := by
      by_cases hlt : i < running.length
      · simp only [hlt, if_true, Option.some.injEq, Prod.mk.injEq] at h
        exact h.1.symm
      · simp only [hlt, if_false, Option.some.injEq, Prod.mk.injEq] at h
        exact h.1.symm
    intro x hx
    rw [keyLe_iff_not_ltB, hr]
    exact hmin x hx

/-- C5 counterexample: in the non-chunked scheduler the primary pass sorts by
counter only. With equal counters, queue `[rB (id 2, arrived 10), rA (id 1,
arrived 5)]`, everything feasible, the produced batch starts with `rB`
(indeed, thanks to the stale-index iteration it contains only `rB`), although
`rA` has the smaller `(counter, arrived_at)` key. -/
theorem c5_counterexample :
    ((vtcGetNextBatch ⟨10, 100, 10, 1, 1, 0⟩ (fun _ _ => true) (fun _ => 1)
        ⟨[⟨2, 1, 10, 1, 0, 0, fun _ => 0, 0⟩, ⟨1, 0, 5, 1, 0, 0, fun _ => 0, 0⟩], [], [],
          [(0, 1), (1, 1)]⟩).1.map Batch.requests).map (List.map Request.id)
      = some [2]
    ∧ keyLtB (keyOf [(0, 1), (1, 1)] ⟨1, 0, 5, 1, 0, 0, fun _ => 0, 0⟩)
        (keyOf [(0, 1), (1, 1)] ⟨2, 1, 10, 1, 0, 0, fun _ => 0, 0⟩) = true := by
  constructor
  · decide
  · decide

/-- C5 amended: the chunked scheduler's `_select_next_request` does rank the
candidates of both pools jointly by `(counter(client_id), arrived_at)`
ascending and picks a least one. The non-chunked scheduler ranks waiting
requests by counter *alone* (its position sort is stable, so counter ties
keep queue order rather than breaking by earliest arrival): the sorted index
list is ordered by counter and is a permutation of the queue positions. -/
theorem c5_amended :
    (∀ (vc : VCounters) (running queue : List Request) (r : Request) (b : Bool)
        (running' queue' : List Request),
        sarathiSelect vc running queue = some (r, b, running', queue') →
          ∀ x ∈ running ++ queue, keyLe (keyOf vc r) (keyOf vc x))
    ∧ (∀ (vc : VCounters) (queue : List Request),
        List.Sorted (fun i j => counterOfIdx vc queue i ≤ counterOfIdx vc queue j)
          (sortedIndices vc queue)
        ∧ (sortedIndices vc queue).Perm (List.range queue.length)) := by
  constructor
  · exact sarathiSelect_min
  · intro vc queue
    constructor
    · have ht : IsTotal ℕ (fun i j => counterOfIdx vc queue i ≤ counterOfIdx vc queue j) :=
        ⟨fun a b => le_total _ _⟩
      have htr : IsTrans ℕ (fun i j => counterOfIdx vc queue i ≤ counterOfIdx vc queue j) :=
        ⟨fun a b c => le_trans⟩
      exact @List.sorted_insertionSort _ _ _ ht htr _
    · exact List.perm_insertionSort _ _

/-- Witness for C5 amended: with counters `[(0, 1), (1, 4)]`, selection over
`running = [r5 (client 1)]` and `queue = [r6 (client 0)]` picks the waiting
request `r6` (counter 1 beats 4, across pools), and its key is `≤` both
candidate keys. -/
theorem c5_amended_witness :
    (sarathiSelect [(0, 1), (1, 4)]
        [⟨5, 1, 0, 3, 3, 0, fun _ => 0, 0⟩]
        [⟨6, 0, 7, 4, 0, 0, fun _ => 0, 0⟩]).map (fun t => (t.1.id, t.2.1))
      = some (6, false)
    ∧ keyLe (keyOf [(0, 1), (1, 4)] ⟨6, 0, 7, 4, 0, 0, fun _ => 0, 0⟩)
        (keyOf [(0, 1), (1, 4)] ⟨5, 1, 0, 3, 3, 0, fun _ => 0, 0⟩)
    ∧ keyLe (keyOf [(0, 1), (1, 4)] ⟨6, 0, 7, 4, 0, 0, fun _ => 0, 0⟩)
        (keyOf [(0, 1), (1, 4)] ⟨6, 0, 7, 4, 0, 0, fun _ => 0, 0⟩) := by
  refine ⟨rfl, ?_, ?_⟩
  · exact c5_amended.1 [(0, 1), (1, 4)]
      [⟨5, 1, 0, 3, 3, 0, fun _ => 0, 0⟩] [⟨6, 0, 7, 4, 0, 0, fun _ => 0, 0⟩]
      ⟨6, 0, 7, 4, 0, 0, fun _ => 0, 0⟩ false
      [⟨5, 1, 0, 3, 3, 0, fun _ => 0, 0⟩] [] rfl
      ⟨5, 1, 0, 3, 3, 0, fun _ => 0, 0⟩
      (List.mem_append_left _ (List.mem_singleton_self _))
  · exact c5_amended.1 [(0, 1), (1, 4)]
      [⟨5, 1, 0, 3, 3, 0, fun _ => 0, 0⟩] [⟨6, 0, 7, 4, 0, 0, fun _ => 0, 0⟩]
      ⟨6, 0, 7, 4, 0, 0, fun _ => 0, 0⟩ false
      [⟨5, 1, 0, 3, 3, 0, fun _ => 0, 0⟩] [] rfl
      ⟨6, 0, 7, 4, 0, 0, fun _ => 0, 0⟩
      (List.mem_append_right _ (List.mem_singleton_self _))

/-- C1 counterexample: waiting queue `[r1 (client 0, counter 0), r2 (client 1,
counter 5)]`; allocation fails exactly for the best-ranked `r1`. The tick's
batch is `[r2]`: a request ranked worse than the first infeasible request is
admitted, so batch formation did not end at the infeasible best-ranked
request. -/
theorem c1_counterexample :
    ((vtcGetNextBatch ⟨10, 100, 10, 1, 1, 0⟩ (fun _ r => r.id != 1) (fun _ => 1)
        ⟨[⟨1, 0, 5, 1, 0, 0, fun _ => 0, 0⟩, ⟨2, 1, 10, 1, 0, 0, fun _ => 0, 0⟩], [], [],
          [(0, 0), (1, 5)]⟩).1.map Batch.requests).map (List.map Request.id)
      = some [2]
    ∧ (fun (_ : AllocMap) (r : Request) => r.id != 1) []
        ⟨1, 0, 5, 1, 0, 0, fun _ => 0, 0⟩ = false
    ∧ vcGet [(0, 0), (1, 5)] 0 < vcGet [(0, 0), (1, 5)] 1 := by
  refine ⟨by decide, by decide, by decide⟩

/-- C1 amended: in the *non-chunked* primary pass, a best-ranked request that
fails the allocation check or the token budget is *skipped* (the loop
continues with the next-ranked position, so worse-ranked requests can still
be admitted); only the micro-batch count cap and the allocated-resource cap
end the pass. In the *chunked* waiting-queue pass, an allocation failure for
a waiting-queue candidate does end batch formation for the tick, reinserting
the candidate at the head of the waiting queue. -/
theorem c1_amended :
    (∀ (cfg : SchedConfig) (canAlloc : AllocMap → Request → Bool)
        (nextTokens : Request → ℤ) (qidx : ℕ) (rest : List ℕ)
        (queue : List Request) (alloc : AllocMap) (reqs : List Request)
        (toks : List ℤ) (attempted : List ℕ) (hq : qidx < queue.length),
        (queue.get ⟨qidx, hq⟩).id ∉ attempted →
        reqs.length ≠ cfg.max_micro_batch_size →
        alloc.length ≠ cfg.batch_size_cap →
        canAlloc alloc (queue.get ⟨qidx, hq⟩) = false →
          vtcPrimaryLoop cfg canAlloc nextTokens (qidx :: rest) queue alloc reqs toks attempted
            = vtcPrimaryLoop cfg canAlloc nextTokens rest queue alloc reqs toks
                ((queue.get ⟨qidx, hq⟩).id :: attempted))
    ∧ (∀ (cfg : SchedConfig) (canAlloc : AllocMap → Request → Bool)
        (nextTokens : Request → ℤ) (qidx : ℕ) (rest : List ℕ)
        (queue : List Request) (alloc : AllocMap) (reqs : List Request)
        (toks : List ℤ) (attempted : List ℕ) (hq : qidx < queue.length),
        (queue.get ⟨qidx, hq⟩).id ∉ attempted →
        reqs.length ≠ cfg.max_micro_batch_size →
        alloc.length ≠ cfg.batch_size_cap →
        canAlloc alloc (queue.get ⟨qidx, hq⟩) = true →
        ((toks ++ [nextTokens (queue.get ⟨qidx, hq⟩)]).length : ℤ)
            * listMax (toks ++ [nextTokens (queue.get ⟨qidx, hq⟩)])
          > cfg.max_tokens_in_batch →
          vtcPrimaryLoop cfg canAlloc nextTokens (qidx :: rest) queue alloc reqs toks attempted
            = vtcPrimaryLoop cfg canAlloc nextTokens rest queue alloc reqs toks
                ((queue.get ⟨qidx, hq⟩).id :: attempted))
    ∧ (∀ (cfg : SchedConfig) (canAlloc : AllocMap → Request → Bool)
        (nextTokensC : Request → Bool → ℤ → ℤ) (vc : VCounters)
        (running queue : List Request) (alloc : AllocMap) (reqs : List Request)
        (toks : List ℤ) (skipped : List Request) (contains_prefill : Bool) (nbt : ℤ)
        (request : Request) (running' queue' : List Request),
        sarathiSelect vc running queue = some (request, false, running', queue') →
        alloc.length ≠ cfg.batch_size_cap →
        reqs.length ≠ cfg.max_micro_batch_size →
        canAlloc alloc request = false →
          sarathiQueueLoop cfg canAlloc nextTokensC vc running queue alloc reqs toks
              skipped contains_prefill nbt
            = ⟨reqs, toks, skipped, running', request :: queue', alloc, nbt,
                contains_prefill⟩) := by
  refine ⟨?_, ?_, ?_⟩
  · intro cfg canAlloc nextTokens qidx rest queue alloc reqs toks attempted hq
      hatt hmicro hcap halloc
    rw [vtcPrimaryLoop]
    rw [dif_pos hq]
    simp only [List.get_eq_getElem] at hatt halloc
    simp only [List.get_eq_getElem]
    rw [if_neg hatt, if_neg hmicro, if_neg hcap]
    simp [halloc]
  · intro cfg canAlloc nextTokens qidx rest queue alloc reqs toks attempted hq
      hatt hmicro hcap halloc htok
    rw [vtcPrimaryLoop]
    rw [dif_pos hq]
    simp only [List.get_eq_getElem] at hatt halloc htok
    simp only [List.get_eq_getElem]
    rw [if_neg hatt, if_neg hmicro, if_neg hcap]
    simp only [halloc, Bool.not_true, Bool.false_eq_true, if_false]
    rw [if_pos htok]
  · intro cfg canAlloc nextTokensC vc running queue alloc reqs toks skipped
      contains_prefill nbt request running' queue' hsel hcap hmicro halloc
    have hne : (running.isEmpty && queue.isEmpty) = false := by
      rcases hrun : running with _ | _
      · rcases hque : queue with _ | _
        · rw [hrun, hque] at hsel
          simp [sarathiSelect, scanMinIdx] at hsel
        · simp
      · simp
    rw [sarathiQueueLoop]
    rw [if_neg (by simp [hne]), if_neg hcap, if_neg hmicro]
    split
    · rename_i heq
      rw [hsel] at heq
      cases heq
    · rename_i req2 isr2 run2 que2 heq
      rw [hsel] at heq
      simp only [Option.some.injEq, Prod.mk.injEq] at heq
      obtain ⟨h1, h2, h3, h4⟩ := heq
      subst h1; subst h2; subst h3; subst h4
      rw [if_pos (show (! false && ! canAlloc alloc request) = true by
        rw [halloc]; rfl)]

/-- Witness for C1 amended at concrete states: with queue `[r1, r2]` and
allocation denying `r1`, the primary pass skips position 0 and continues with
the rest (first conjunct); with a token budget of 1 already holding one token,
a second 1-token request is over budget and is skipped (second conjunct); in
the chunked pass, a waiting candidate that cannot be allocated stops the loop,
reinserted at the queue head (third conjunct). -/
theorem c1_amended_witness :
    vtcPrimaryLoop ⟨10, 100, 10, 1, 1, 0⟩ (fun _ r => r.id != 1) (fun _ => 1)
        [0, 1] [⟨1, 0, 5, 1, 0, 0, fun _ => 0, 0⟩, ⟨2, 1, 10, 1, 0, 0, fun _ => 0, 0⟩]
        [] [] [] []
      = vtcPrimaryLoop ⟨10, 100, 10, 1, 1, 0⟩ (fun _ r => r.id != 1) (fun _ => 1)
        [1] [⟨1, 0, 5, 1, 0, 0, fun _ => 0, 0⟩, ⟨2, 1, 10, 1, 0, 0, fun _ => 0, 0⟩]
        [] [] [] [1]
    ∧ vtcPrimaryLoop ⟨10, 1, 10, 1, 1, 0⟩ (fun _ _ => true) (fun _ => 1)
        [0] [⟨3, 0, 0, 1, 0, 0, fun _ => 0, 0⟩] [] [] [1] []
      = vtcPrimaryLoop ⟨10, 1, 10, 1, 1, 0⟩ (fun _ _ => true) (fun _ => 1)
        [] [⟨3, 0, 0, 1, 0, 0, fun _ => 0, 0⟩] [] [] [1] [3]
    ∧ sarathiQueueLoop ⟨10, 100, 10, 1, 1, 0⟩ (fun _ _ => false) (fun _ _ _ => 1) []
        [] [⟨4, 0, 2, 6, 0, 0, fun _ => 0, 0⟩] [] [] [] [] false 0
      = ⟨[], [], [], [], [⟨4, 0, 2, 6, 0, 0, fun _ => 0, 0⟩], [], 0, false⟩ := by
  refine ⟨?_, ?_, ?_⟩
  · exact c1_amended.1 ⟨10, 100, 10, 1, 1, 0⟩ (fun _ r => r.id != 1) (fun _ => 1)
      0 [1] _ [] [] [] [] (by decide) (by decide) (by decide) (by decide) (by decide)
  · exact c1_amended.2.1 ⟨10, 1, 10, 1, 1, 0⟩ (fun _ _ => true) (fun _ => 1)
      0 [] _ [] [] [1] [] (by decide) (by decide) (by decide) (by decide) (by decide)
      (by decide)
  · exact c1_amended.2.2 ⟨10, 100, 10, 1, 1, 0⟩ (fun _ _ => false) (fun _ _ _ => 1)
      [] [] [⟨4, 0, 2, 6, 0, 0, fun _ => 0, 0⟩] [] [] [] [] false 0
      ⟨4, 0, 2, 6, 0, 0, fun _ => 0, 0⟩ [] [] rfl (by decide) (by decide) (by decide)

theorem vtcServiceCost_nonneg (r : Request) (n : ℤ)
    (hp : ∀ m, 0 ≤ r.prefillCost m) (hd : 0 ≤ r.decodeCost) (hn : 0 ≤ n) :
    0 ≤ vtcServiceCost r n := by
  unfold vtcServiceCost
  dsimp only
  split
  · exact hp n
  · exact mul_nonneg (by exact_mod_cast hn) hd

theorem sarathiServiceCost_nonneg (r : Request) (n : ℤ)
    (hp : ∀ m, 0 ≤ r.prefillCost m) (hd : 0 ≤ r.decodeCost) (hn : 0 ≤ n) :
    0 ≤ sarathiServiceCost r n := by
  unfold sarathiServiceCost
  refine add_nonneg (hp _) (mul_nonneg hd ?_)
  have hmin : min (max (r.num_prefill_tokens - (r.num_processed_tokens - n)) 0) n ≤ n :=
    min_le_right _ _
  exact_mod_cast sub_nonneg.mpr hmin

theorem dampingFor_pos (cfg : SchedConfig) (c : ℕ)
    (h0 : 0 < cfg.client_zero_damping) (h1 : 0 < cfg.client_one_damping) :
    0 < dampingFor cfg c := by
  unfold dampingFor
  split
  · exact h0
  · exact h1

/-- C6: every client's virtual counter is non-decreasing across the scheduler
operations. `add_request` either leaves the ledger unchanged or appends a new
client at the (non-negative) minimum; batch completion adds per-client service
that is non-negative when the per-request cost functions are non-negative and
the per-request token counts lie in `[0, num_processed_tokens]` (with
positive damping factors, which configuration validation guarantees per the
spec's §7); `get_next_batch` never writes the counters in either scheduler. -/
theorem c6_counter_monotone :
    (∀ (vc : VCounters) (c c' : ℕ), (∀ p ∈ vc, 0 ≤ p.2) →
        vcGet vc c' ≤ vcGet (updateCounterOnArrival vc c) c')
    ∧ (∀ (vc : VCounters) (batch : List (Request × ℤ)) (c : ℕ),
        (∀ p ∈ batch, (∀ m, 0 ≤ p.1.prefillCost m) ∧ 0 ≤ p.1.decodeCost
          ∧ 0 ≤ p.2 ∧ p.2 ≤ p.1.num_processed_tokens) →
          vcGet vc c ≤ vcGet (vtcUpdateOnBatchCompletion vc batch) c)
    ∧ (∀ (cfg : SchedConfig) (vc : VCounters) (batch : List (Request × ℤ)) (c : ℕ),
        0 < cfg.client_zero_damping → 0 < cfg.client_one_damping →
        (∀ p ∈ batch, (∀ m, 0 ≤ p.1.prefillCost m) ∧ 0 ≤ p.1.decodeCost
          ∧ 0 ≤ p.2 ∧ p.2 ≤ p.1.num_processed_tokens) →
          vcGet vc c ≤ vcGet (sarathiUpdateOnBatchCompletion cfg vc batch) c)
    ∧ (∀ (cfg : SchedConfig) (canAlloc : AllocMap → Request → Bool)
        (nextTokens : Request → ℤ) (st : VTCState),
        (vtcGetNextBatch cfg canAlloc nextTokens st).2.counters = st.counters)
    ∧ (∀ (cfg : SchedConfig) (canAlloc : AllocMap → Request → Bool)
        (nextTokensC : Request → Bool → ℤ → ℤ) (st : SarathiState),
        (sarathiGetNextBatch cfg canAlloc nextTokensC st).2.counters = st.counters) := by
  refine ⟨?_, ?_, ?_, ?_, ?_⟩
  · intro vc c c' hnn
    unfold updateCounterOnArrival
    split
    · exact le_refl _
    · unfold vcGet
      by_cases hcc : c' = c
      · subst hcc
        rename_i hns
        have hlook : vc.lookup c' = none := by
          rcases hl : vc.lookup c' with _ | v
          · rfl
          · rw [hl] at hns; simp at hns
        rw [hlook, lookup_append_single_same vc c' (vcMin vc) hlook]
        rcases hvc : vc with _ | ⟨p, ps⟩
        · simp [vcMin]
        · have hmem := vcMin_mem vc (by rw [hvc]; simp)
          rcases hmem with ⟨q, hq, he⟩
          have := hnn q (by rw [hvc] at hq ⊢; exact hq)
          rw [← hvc, he]
          simpa using this
      · rw [lookup_append_single_other vc c c' (vcMin vc) hcc]
  · intro vc batch c hb
    unfold vtcUpdateOnBatchCompletion
    refine vcGet_le_foldl_vcAdd _ vc c ?_
    refine foldl_vcAdd_nonneg (fun p => vtcServiceCost p.1 p.2)
      (fun p => p.1.client_id) batch ?_ [] (by simp)
    intro p hp
    obtain ⟨h1, h2, h3, -⟩ := hb p hp
    exact vtcServiceCost_nonneg p.1 p.2 h1 h2 h3
  · intro cfg vc batch c h0 h1 hb
    unfold sarathiUpdateOnBatchCompletion
    refine vcGet_le_foldl_vcAdd _ vc c ?_
    refine foldl_vcAdd_nonneg
      (fun p => sarathiServiceCost p.1 p.2 / dampingFor cfg p.1.client_id)
      (fun p => p.1.client_id) batch ?_ [] (by simp)
    intro p hp
    obtain ⟨hc1, hc2, hc3, -⟩ := hb p hp
    exact div_nonneg (sarathiServiceCost_nonneg p.1 p.2 hc1 hc2 hc3)
      (le_of_lt (dampingFor_pos cfg p.1.client_id h0 h1))
  · intro cfg canAlloc nextTokens st
    unfold vtcGetNextBatch
    dsimp only
    split
    · rfl
    · split <;> rfl
  · intro cfg canAlloc nextTokensC st
    rfl

/-- Witness for C6 at concrete inputs: an arrival of new client 3 over the
ledger `[(0, 2)]` does not decrease client 0's counter; a singleton batch
(constant cost 1 per prefill call, decode cost 1, 2 of 5 tokens processed)
does not decrease the charged client's counter under either scheduler with
dampings 1 and 2. -/
theorem c6_counter_monotone_witness :
    vcGet [(0, 2)] 0 ≤ vcGet (updateCounterOnArrival [(0, 2)] 3) 0
    ∧ vcGet [(0, 2)] 0 ≤
        vcGet (vtcUpdateOnBatchCompletion [(0, 2)]
          [(⟨1, 0, 0, 4, 5, 0, fun _ => 1, 1⟩, 2)]) 0
    ∧ vcGet [(0, 2)] 0 ≤
        vcGet (sarathiUpdateOnBatchCompletion ⟨10, 100, 10, 1, 2, 0⟩ [(0, 2)]
          [(⟨1, 0, 0, 4, 5, 0, fun _ => 1, 1⟩, 2)]) 0 := by
  refine ⟨?_, ?_, ?_⟩
  · exact c6_counter_monotone.1 [(0, 2)] 3 0 (by intro p hp; simp at hp; simp [hp])
  · refine c6_counter_monotone.2.1 [(0, 2)] _ 0 ?_
    intro p hp
    simp only [List.mem_singleton] at hp
    subst hp
    exact ⟨fun m => by norm_num, by norm_num, by norm_num, by norm_num⟩
  · refine c6_counter_monotone.2.2.1 ⟨10, 100, 10, 1, 2, 0⟩ [(0, 2)] _ 0
      (by norm_num) (by norm_num) ?_
    intro p hp
    simp only [List.mem_singleton] at hp
    subst hp
    exact ⟨fun m => by norm_num, by norm_num, by norm_num, by norm_num⟩

theorem allocAdd_length_le (a : AllocMap) (i : ℕ) :
    (allocAdd a i).length ≤ a.length + 1 := by
  unfold allocAdd
  split
  · exact Nat.le_succ _
  · simp

/-- Invariants of the non-chunked primary pass: micro-batch count cap,
allocated-resource cap, request/token list alignment, and the uniform-width
token budget are all preserved. -/
theorem vtcPrimaryLoop_bounds (cfg : SchedConfig) (canAlloc : AllocMap → Request → Bool)
    (nextTokens : Request → ℤ) :
    ∀ (idxs : List ℕ) (queue : List Request) (alloc : AllocMap)
      (reqs : List Request) (toks : List ℤ) (attempted : List ℕ),
      reqs.length ≤ cfg.max_micro_batch_size →
      alloc.length ≤ cfg.batch_size_cap →
      reqs.length = toks.length →
      (toks ≠ [] → (toks.length : ℤ) * listMax toks ≤ cfg.max_tokens_in_batch) →
      (vtcPrimaryLoop cfg canAlloc nextTokens idxs queue alloc reqs toks attempted).reqs.length
          ≤ cfg.max_micro_batch_size
      ∧ (vtcPrimaryLoop cfg canAlloc nextTokens idxs queue alloc reqs toks attempted).alloc.length
          ≤ cfg.batch_size_cap
      ∧ (vtcPrimaryLoop cfg canAlloc nextTokens idxs queue alloc reqs toks attempted).reqs.length
          = (vtcPrimaryLoop cfg canAlloc nextTokens idxs queue alloc reqs toks attempted).toks.length
      ∧ ((vtcPrimaryLoop cfg canAlloc nextTokens idxs queue alloc reqs toks attempted).toks ≠ [] →
          ((vtcPrimaryLoop cfg canAlloc nextTokens idxs queue alloc reqs toks attempted).reqs.length : ℤ)
              * listMax (vtcPrimaryLoop cfg canAlloc nextTokens idxs queue alloc reqs toks attempted).toks
            ≤ cfg.max_tokens_in_batch) := by
  intro idxs queue alloc reqs toks attempted
  induction idxs, queue, alloc, reqs, toks, attempted using
    vtcPrimaryLoop.induct cfg canAlloc nextTokens with
  | case1 queue alloc reqs toks att =>
    intro h1 h2 h3 h4
    rw [vtcPrimaryLoop]
    exact ⟨h1, h2, h3, fun hne => h3 ▸ h4 hne⟩
  | case2 qidx rest queue alloc reqs toks att hq req hmem ih =>
    intro h1 h2 h3 h4
    rw [vtcPrimaryLoop]
    rw [dif_pos hq]
    dsimp only
    rw [if_pos hmem]
    exact ih h1 h2 h3 h4
  | case3 qidx rest queue alloc reqs toks att hq req hmem hmicro =>
    intro h1 h2 h3 h4
    rw [vtcPrimaryLoop]
    rw [dif_pos hq]
    dsimp only
    rw [if_neg hmem, if_pos hmicro]
    exact ⟨h1, h2, h3, fun hne => h3 ▸ h4 hne⟩
  | case4 qidx rest queue alloc reqs toks att hq req hmem hmicro hcap =>
    intro h1 h2 h3 h4
    rw [vtcPrimaryLoop]
    rw [dif_pos hq]
    dsimp only
    rw [if_neg hmem, if_neg hmicro, if_pos hcap]
    exact ⟨h1, h2, h3, fun hne => h3 ▸ h4 hne⟩
  | case5 qidx rest queue alloc reqs toks att hq req hmem att2 hmicro hcap hca ih =>
    intro h1 h2 h3 h4
    rw [vtcPrimaryLoop]
    rw [dif_pos hq]
    dsimp only
    rw [if_neg hmem, if_neg hmicro, if_neg hcap, if_pos hca]
    exact ih h1 h2 h3 h4
  | case6 qidx rest queue alloc reqs toks att hq req hmem att2 hmicro hcap nxt hca newtoks htok ih =>
    intro h1 h2 h3 h4
    rw [vtcPrimaryLoop]
    rw [dif_pos hq]
    dsimp only
    rw [if_neg hmem, if_neg hmicro, if_neg hcap, if_neg hca, if_pos htok]
    exact ih h1 h2 h3 h4
  | case7 qidx rest queue alloc reqs toks att hq req hmem att2 hmicro hcap nxt hca newtoks htok popped queue2 hpop ih =>
    intro h1 h2 h3 h4
    rw [vtcPrimaryLoop]
    rw [dif_pos hq]
    dsimp only
    rw [if_neg hmem, if_neg hmicro, if_neg hcap, if_neg hca, if_neg htok]
    simp only [hpop]
    refine ih ?_ ?_ ?_ ?_
    · simp only [List.length_append, List.length_cons, List.length_nil]
      omega
    · have := allocAdd_length_le alloc popped.id
      omega
    · show (reqs ++ [popped]).length = (toks ++ [nextTokens req]).length
      simp [h3]
    · intro hne
      have hle := not_lt.mp htok
      simpa using hle
  | case8 qidx rest queue alloc reqs toks att hq req hmem hmicro hcap nxt hca newtoks htok snd2 hpop =>
    intro h1 h2 h3 h4
    rw [vtcPrimaryLoop]
    rw [dif_pos hq]
    dsimp only
    rw [if_neg hmem, if_neg hmicro, if_neg hcap, if_neg hca, if_neg htok]
    simp only [hpop]
    exact ⟨h1, h2, h3, fun hne => h3 ▸ h4 hne⟩
  | case9 qidx rest queue alloc reqs toks att hq ih =>
    intro h1 h2 h3 h4
    rw [vtcPrimaryLoop]
    rw [dif_neg hq]
    exact ih h1 h2 h3 h4

/-- The decode pass only ever appends to the batch below the micro-batch
count cap and keeps requests and token counts aligned. -/
theorem vtcDecodeLoop_count (cfg : SchedConfig) (canAlloc : AllocMap → Request → Bool)
    (nextTokens : Request → ℤ) (vc : VCounters) :
    ∀ (preempted : List Request) (alloc : AllocMap) (queue reqs : List Request)
      (toks : List ℤ) (freed : List ℕ),
      reqs.length ≤ cfg.max_micro_batch_size →
      reqs.length = toks.length →
      (vtcDecodeLoop cfg canAlloc nextTokens vc preempted alloc queue reqs toks freed).reqs.length
          ≤ cfg.max_micro_batch_size
      ∧ (vtcDecodeLoop cfg canAlloc nextTokens vc preempted alloc queue reqs toks freed).reqs.length
          = (vtcDecodeLoop cfg canAlloc nextTokens vc preempted alloc queue reqs toks freed).toks.length := by
  intro preempted alloc queue reqs toks freed
  induction preempted, alloc, queue, reqs, toks, freed using
    vtcDecodeLoop.induct cfg canAlloc nextTokens vc with
  | case1 a q rs ts f =>
    intro h1 h2
    rw [vtcDecodeLoop]
    exact ⟨h1, h2⟩
  | case2 p tl a q rs ts f hmic =>
    intro h1 h2
    rw [vtcDecodeLoop]
    dsimp only
    rw [if_pos hmic]
    exact ⟨h1, h2⟩
  | case3 p tl a q rs ts f hmic hidx =>
    intro h1 h2
    rw [vtcDecodeLoop]
    dsimp only
    rw [if_neg hmic]
    split
    · exact ⟨h1, h2⟩
    · rename_i idx2 heq
      rw [hidx] at heq
      cases heq
  | case4 p tl a q rs ts f hmic idx hidx req2 rest2 er2 her ih =>
    intro h1 h2
    rw [vtcDecodeLoop]
    dsimp only
    rw [if_neg hmic]
    split
    · rename_i heq
      rw [hidx] at heq
      cases heq
    · rename_i idx2 heq
      rw [hidx] at heq
      injection heq with heq2
      subst heq2
      rw [if_pos her]
      refine ih ?_ ?_
      · simp only [List.length_append, List.length_cons, List.length_nil]
        omega
      · simp [h2]
  | case5 p tl a q rs ts f hmic idx hidx req2 rest2 er2 her ih =>
    intro h1 h2
    rw [vtcDecodeLoop]
    dsimp only
    rw [if_neg hmic]
    split
    · rename_i heq
      rw [hidx] at heq
      cases heq
    · rename_i idx2 heq
      rw [hidx] at heq
      injection heq with heq2
      subst heq2
      rw [if_neg her]
      exact ih h1 h2

/-- The chunked preempted pass respects the micro-batch count cap and keeps
requests and token counts aligned. -/
theorem sarathiPreLoop_count (cfg : SchedConfig) (canAlloc : AllocMap → Request → Bool)
    (nextTokensC : Request → Bool → ℤ → ℤ) (contains_prefill : Bool) :
    ∀ (preempted : List Request) (alloc : AllocMap) (queue reqs : List Request)
      (toks : List ℤ) (skipped running : List Request) (nbt : ℤ) (freed : List ℕ),
      reqs.length ≤ cfg.max_micro_batch_size →
      reqs.length = toks.length →
      (sarathiPreLoop cfg canAlloc nextTokensC contains_prefill preempted alloc queue
          reqs toks skipped running nbt freed).reqs.length ≤ cfg.max_micro_batch_size
      ∧ (sarathiPreLoop cfg canAlloc nextTokensC contains_prefill preempted alloc queue
          reqs toks skipped running nbt freed).reqs.length
        = (sarathiPreLoop cfg canAlloc nextTokensC contains_prefill preempted alloc queue
            reqs toks skipped running nbt freed).toks.length := by
  intro preempted alloc queue reqs toks skipped running nbt freed
  induction preempted, alloc, queue, reqs, toks, skipped, running, nbt, freed using
    sarathiPreLoop.induct cfg canAlloc nextTokensC contains_prefill with
  | case1 a q rs ts sk rn nb f =>
    intro h1 h2
    rw [sarathiPreLoop]
    exact ⟨h1, h2⟩
  | case2 p ps a q rs ts sk rn nb f hmic =>
    intro h1 h2
    rw [sarathiPreLoop]
    dsimp only
    rw [if_pos hmic]
    exact ⟨h1, h2⟩
  | case3 p ps a q rs ts sk rn nb f hmic hpre ih =>
    intro h1 h2
    rw [sarathiPreLoop]
    dsimp only
    rw [if_neg hmic, if_pos hpre]
    exact ih h1 h2
  | case4 p ps a q rs ts sk rn nb f hmic hpre nt2 hnt ih =>
    intro h1 h2
    rw [sarathiPreLoop]
    dsimp only
    rw [if_neg hmic, if_neg hpre, if_pos hnt]
    exact ih h1 h2
  | case5 p ps a q rs ts sk rn nb f hmic hpre nt2 hnt er2 her ih =>
    intro h1 h2
    rw [sarathiPreLoop]
    dsimp only
    rw [if_neg hmic, if_neg hpre, if_neg hnt, if_pos her]
    refine ih ?_ ?_
    · simp only [List.length_append, List.length_cons, List.length_nil]
      omega
    · simp [h2]
  | case6 p ps a q rs ts sk rn nb f hmic hpre nt2 hnt er2 her ih =>
    intro h1 h2
    rw [sarathiPreLoop]
    dsimp only
    rw [if_neg hmic, if_neg hpre, if_neg hnt, if_neg her]
    exact ih h1 h2

/-- The chunked waiting-queue pass respects the micro-batch count cap and
keeps requests and token counts aligned. -/
theorem sarathiQueueLoop_count (cfg : SchedConfig) (canAlloc : AllocMap → Request → Bool)
    (nextTokensC : Request → Bool → ℤ → ℤ) (vc : VCounters) :
    ∀ (running queue : List Request) (alloc : AllocMap) (reqs : List Request)
      (toks : List ℤ) (skipped : List Request) (contains_prefill : Bool) (nbt : ℤ),
      reqs.length ≤ cfg.max_micro_batch_size →
      reqs.length = toks.length →
      (sarathiQueueLoop cfg canAlloc nextTokensC vc running queue alloc reqs toks
          skipped contains_prefill nbt).reqs.length ≤ cfg.max_micro_batch_size
      ∧ (sarathiQueueLoop cfg canAlloc nextTokensC vc running queue alloc reqs toks
          skipped contains_prefill nbt).reqs.length
        = (sarathiQueueLoop cfg canAlloc nextTokensC vc running queue alloc reqs toks
            skipped contains_prefill nbt).toks.length := by
  intro running queue alloc reqs toks skipped contains_prefill nbt
  induction running, queue, alloc, reqs, toks, skipped, contains_prefill, nbt using
    sarathiQueueLoop.induct cfg canAlloc nextTokensC vc with
  | case1 rn qu a rs ts sk cp nb hemp =>
    intro h1 h2
    rw [sarathiQueueLoop]
    rw [if_pos hemp]
    exact ⟨h1, h2⟩
  | case2 rn qu a rs ts sk cp nb hemp hcap =>
    intro h1 h2
    rw [sarathiQueueLoop]
    rw [if_neg hemp, if_pos hcap]
    exact ⟨h1, h2⟩
  | case3 rn qu a rs ts sk cp nb hemp hcap hmic =>
    intro h1 h2
    rw [sarathiQueueLoop]
    rw [if_neg hemp, if_neg hcap, if_pos hmic]
    exact ⟨h1, h2⟩
  | case4 rn qu a rs ts sk cp nb hemp hcap hmic hsel =>
    intro h1 h2
    rw [sarathiQueueLoop]
    rw [if_neg hemp, if_neg hcap, if_neg hmic]
    split
    · exact ⟨h1, h2⟩
    · rename_i r3 b3 rn3 qu3 heq
      rw [hsel] at heq
      cases heq
  | case5 rn qu a rs ts sk cp nb hemp hcap hmic req isr rn2 qu2 hsel hstop =>
    intro h1 h2
    rw [sarathiQueueLoop]
    rw [if_neg hemp, if_neg hcap, if_neg hmic]
    split
    · rename_i heq
      rw [hsel] at heq
      cases heq
    · rename_i r3 b3 rn3 qu3 heq
      rw [hsel] at heq
      simp only [Option.some.injEq, Prod.mk.injEq] at heq
      obtain ⟨e1, e2, e3, e4⟩ := heq
      subst e1; subst e2; subst e3; subst e4
      rw [if_pos hstop]
      exact ⟨h1, h2⟩
  | case6 rn qu a rs ts sk cp nb hemp hcap hmic req isr rn2 qu2 hsel hgo nt2 hnt ih =>
    intro h1 h2
    rw [sarathiQueueLoop]
    rw [if_neg hemp, if_neg hcap, if_neg hmic]
    split
    · rename_i heq
      rw [hsel] at heq
      cases heq
    · rename_i r3 b3 rn3 qu3 heq
      rw [hsel] at heq
      simp only [Option.some.injEq, Prod.mk.injEq] at heq
      obtain ⟨e1, e2, e3, e4⟩ := heq
      subst e1; subst e2; subst e3; subst e4
      rw [if_neg hgo, if_pos hnt]
      exact ih h1 h2
  | case7 rn qu a rs ts sk cp nb hemp hcap hmic req isr rn2 qu2 hsel hgo nt2 hnt a2 ih =>
    intro h1 h2
    rw [sarathiQueueLoop]
    rw [if_neg hemp, if_neg hcap, if_neg hmic]
    split
    · rename_i heq
      rw [hsel] at heq
      cases heq
    · rename_i r3 b3 rn3 qu3 heq
      rw [hsel] at heq
      simp only [Option.some.injEq, Prod.mk.injEq] at heq
      obtain ⟨e1, e2, e3, e4⟩ := heq
      subst e1; subst e2; subst e3; subst e4
      rw [if_neg hgo, if_neg hnt]
      refine ih ?_ ?_
      · simp only [List.length_append, List.length_cons, List.length_nil]
        omega
      · simp [h2]

/-- C3 counterexample: with `max_tokens_in_batch = 1`, an empty waiting queue
and one feasible preempted request whose next token count is 2, the decode
path returns a batch with `count × max(tokens) = 1 · 2 = 2 > 1` — the token
budget is never checked on the preempted/decode path. -/
theorem c3_counterexample :
    ((vtcGetNextBatch ⟨10, 1, 10, 1, 1, 0⟩ (fun _ _ => true) (fun _ => 2)
        ⟨[], [⟨1, 0, 0, 2, 5, 0, fun _ => 0, 0⟩], [1], [(0, 0)]⟩).1.map
        (fun b => (b.requests.length : ℤ) * listMax b.num_tokens)) = some 2
    ∧ ¬ ((2 : ℤ) ≤ (1 : ℤ)) := by
  have hd1 : vtcDecodeLoop ⟨10, 1, 10, 1, 1, 0⟩ (fun _ _ => true) (fun _ => 2) [(0, 0)]
      [⟨1, 0, 0, 2, 5, 0, fun _ => 0, 0⟩] [1] [] [] [] []
      = vtcDecodeLoop ⟨10, 1, 10, 1, 1, 0⟩ (fun _ _ => true) (fun _ => 2) [(0, 0)]
        [] [1] [] [⟨1, 0, 0, 2, 5, 0, fun _ => 0, 0⟩] [2] [] := by
    rw [vtcDecodeLoop.eq_def]
    dsimp only [firstMinCounterIdx, scanMinIdx, scanMinAux, List.getD, List.eraseIdx]
    rw [evictInner.eq_def]
    norm_num [allocAdd]
  have hd2 : vtcDecodeLoop ⟨10, 1, 10, 1, 1, 0⟩ (fun _ _ => true) (fun _ => 2) [(0, 0)]
      [] [1] [] [⟨1, 0, 0, 2, 5, 0, fun _ => 0, 0⟩] [2] []
      = ⟨[⟨1, 0, 0, 2, 5, 0, fun _ => 0, 0⟩], [2], [], [1], [], []⟩ := by
    rw [vtcDecodeLoop.eq_def]
  have hsi : sortedIndices [(0, 0)] [] = [] := rfl
  have hpl : vtcPrimaryLoop ⟨10, 1, 10, 1, 1, 0⟩ (fun _ _ => true) (fun _ => 2)
      [] [] [1] [] [] [] = ⟨[], [], [], [1]⟩ := rfl
  have hins : List.insertionSort (fun a b => a.arrived_at ≤ b.arrived_at)
      [(⟨1, 0, 0, 2, 5, 0, fun _ => 0, 0⟩ : Request)]
      = [⟨1, 0, 0, 2, 5, 0, fun _ => 0, 0⟩] := rfl
  refine ⟨?_, by norm_num⟩
  rw [vtcGetNextBatch]
  dsimp only
  rw [hsi, hpl]
  dsimp only
  rw [hins, hd1, hd2]
  norm_num [listMax]

/-- C3 amended: the *primary* pass of the non-chunked scheduler preserves all
three bounds — `count ≤ max_micro_batch_size`, `allocated ≤ batch_size_cap`,
and `count × max(tokens) ≤ max_tokens_in_batch` — but its preempted/decode
path enforces only the micro-batch count cap (neither the token budget nor
the batch-size cap is checked there), and the chunked scheduler's two passes
likewise guarantee only the count cap structurally (its token budget lives in
the external chunk-negotiation function). Every batch returned by either
`_get_next_batch` respects the micro-batch count cap with aligned token
counts. -/
theorem c3_amended :
    (∀ (cfg : SchedConfig) (canAlloc : AllocMap → Request → Bool)
        (nextTokens : Request → ℤ) (idxs : List ℕ) (queue : List Request)
        (alloc : AllocMap) (reqs : List Request) (toks : List ℤ) (attempted : List ℕ),
        reqs.length ≤ cfg.max_micro_batch_size →
        alloc.length ≤ cfg.batch_size_cap →
        reqs.length = toks.length →
        (toks ≠ [] → (toks.length : ℤ) * listMax toks ≤ cfg.max_tokens_in_batch) →
        (vtcPrimaryLoop cfg canAlloc nextTokens idxs queue alloc reqs toks attempted).reqs.length
            ≤ cfg.max_micro_batch_size
        ∧ (vtcPrimaryLoop cfg canAlloc nextTokens idxs queue alloc reqs toks attempted).alloc.length
            ≤ cfg.batch_size_cap
        ∧ ((vtcPrimaryLoop cfg canAlloc nextTokens idxs queue alloc reqs toks attempted).toks ≠ [] →
            ((vtcPrimaryLoop cfg canAlloc nextTokens idxs queue alloc reqs toks attempted).reqs.length : ℤ)
                * listMax (vtcPrimaryLoop cfg canAlloc nextTokens idxs queue alloc reqs toks attempted).toks
              ≤ cfg.max_tokens_in_batch))
    ∧ (∀ (cfg : SchedConfig) (canAlloc : AllocMap → Request → Bool)
        (nextTokens : Request → ℤ) (vc : VCounters) (preempted : List Request)
        (alloc : AllocMap) (queue reqs : List Request) (toks : List ℤ) (freed : List ℕ),
        reqs.length ≤ cfg.max_micro_batch_size →
        reqs.length = toks.length →
        (vtcDecodeLoop cfg canAlloc nextTokens vc preempted alloc queue reqs toks freed).reqs.length
          ≤ cfg.max_micro_batch_size)
    ∧ (∀ (cfg : SchedConfig) (canAlloc : AllocMap → Request → Bool)
        (nextTokens : Request → ℤ) (st : VTCState) (batch : Batch) (st' : VTCState),
        st.alloc.length ≤ cfg.batch_size_cap →
        vtcGetNextBatch cfg canAlloc nextTokens st = (some batch, st') →
        batch.requests.length ≤ cfg.max_micro_batch_size
        ∧ batch.requests.length = batch.num_tokens.length)
    ∧ (∀ (cfg : SchedConfig) (canAlloc : AllocMap → Request → Bool)
        (nextTokensC : Request → Bool → ℤ → ℤ) (st : SarathiState) (batch : Batch)
        (st' : SarathiState),
        sarathiGetNextBatch cfg canAlloc nextTokensC st = (some batch, st') →
        batch.requests.length ≤ cfg.max_micro_batch_size
        ∧ batch.requests.length = batch.num_tokens.length) := by
  refine ⟨?_, ?_, ?_, ?_⟩
  · intro cfg canAlloc nextTokens idxs queue alloc reqs toks attempted h1 h2 h3 h4
    obtain ⟨b1, b2, b3, b4⟩ :=
      vtcPrimaryLoop_bounds cfg canAlloc nextTokens idxs queue alloc reqs toks attempted
        h1 h2 h3 h4
    exact ⟨b1, b2, b4⟩
  · intro cfg canAlloc nextTokens vc preempted alloc queue reqs toks freed h1 h2
    exact (vtcDecodeLoop_count cfg canAlloc nextTokens vc preempted alloc queue reqs
      toks freed h1 h2).1
  · intro cfg canAlloc nextTokens st batch st' hcap heq
    unfold vtcGetNextBatch at heq
    dsimp only at heq
    obtain ⟨p1, p2, p3, p4⟩ :=
      vtcPrimaryLoop_bounds cfg canAlloc nextTokens
        (sortedIndices st.counters st.queue) st.queue st.alloc [] [] []
        (Nat.zero_le _) hcap rfl (fun h => absurd rfl h)
    split at heq
    · simp only [Prod.mk.injEq, Option.some.injEq] at heq
      rw [← heq.1]
      exact ⟨p1, p3⟩
    · obtain ⟨d1, d2⟩ :=
        vtcDecodeLoop_count cfg canAlloc nextTokens st.counters
          (List.insertionSort (fun a b => a.arrived_at ≤ b.arrived_at) st.preempted)
          (vtcPrimaryLoop cfg canAlloc nextTokens
            (sortedIndices st.counters st.queue) st.queue st.alloc [] [] []).alloc
          (vtcPrimaryLoop cfg canAlloc nextTokens
            (sortedIndices st.counters st.queue) st.queue st.alloc [] [] []).queue
          [] [] [] (Nat.zero_le _) rfl
      split at heq
      · simp at heq
      · simp only [Prod.mk.injEq, Option.some.injEq] at heq
        rw [← heq.1]
        exact ⟨d1, d2⟩
  · intro cfg canAlloc nextTokensC st batch st' heq
    unfold sarathiGetNextBatch at heq
    dsimp only at heq
    obtain ⟨q1, q2⟩ :=
      sarathiPreLoop_count cfg canAlloc nextTokensC false st.preempted st.alloc
        st.queue [] [] [] [] 0 [] (Nat.zero_le _) rfl
    obtain ⟨w1, w2⟩ :=
      sarathiQueueLoop_count cfg canAlloc nextTokensC st.counters
        (sarathiPreLoop cfg canAlloc nextTokensC false st.preempted st.alloc
          st.queue [] [] [] [] 0 []).running
        (sarathiPreLoop cfg canAlloc nextTokensC false st.preempted st.alloc
          st.queue [] [] [] [] 0 []).queue
        (sarathiPreLoop cfg canAlloc nextTokensC false st.preempted st.alloc
          st.queue [] [] [] [] 0 []).alloc
        (sarathiPreLoop cfg canAlloc nextTokensC false st.preempted st.alloc
          st.queue [] [] [] [] 0 []).reqs
        (sarathiPreLoop cfg canAlloc nextTokensC false st.preempted st.alloc
          st.queue [] [] [] [] 0 []).toks
        (sarathiPreLoop cfg canAlloc nextTokensC false st.preempted st.alloc
          st.queue [] [] [] [] 0 []).skipped
        false
        (sarathiPreLoop cfg canAlloc nextTokensC false st.preempted st.alloc
          st.queue [] [] [] [] 0 []).num_batch_tokens
        q1 q2
    split at heq
    · simp at heq
    · simp only [Prod.mk.injEq, Option.some.injEq] at heq
      rw [← heq.1]
      exact ⟨w1, w2⟩

/-- Witness for C3 amended at concrete ticks: the primary pass on two 1-token
requests stays within the caps; the decode pass on one preempted request stays
within the count cap; a non-chunked tick on a one-request queue yields the
batch `[req 1]` with `1 ≤ 10` requests and aligned token counts, and so does
a chunked tick. -/
theorem c3_amended_witness :
    (vtcPrimaryLoop ⟨10, 100, 10, 1, 1, 0⟩ (fun _ _ => true) (fun _ => 1)
        [0, 1] [⟨1, 0, 0, 2, 0, 0, fun _ => 0, 0⟩, ⟨2, 1, 1, 2, 0, 0, fun _ => 0, 0⟩]
        [] [] [] []).reqs.length ≤ 10
    ∧ (vtcDecodeLoop ⟨10, 1, 10, 1, 1, 0⟩ (fun _ _ => true) (fun _ => 1) []
        [⟨1, 0, 0, 2, 5, 0, fun _ => 0, 0⟩] [1] [] [] [] []).reqs.length ≤ 10
    ∧ ((⟨0, [⟨1, 0, 0, 2, 0, 0, fun _ => 0, 0⟩], [1]⟩ : Batch).requests.length ≤ 10
        ∧ (⟨0, [⟨1, 0, 0, 2, 0, 0, fun _ => 0, 0⟩], [1]⟩ : Batch).requests.length
          = (⟨0, [⟨1, 0, 0, 2, 0, 0, fun _ => 0, 0⟩], [1]⟩ : Batch).num_tokens.length)
    ∧ ((⟨0, [⟨2, 0, 0, 2, 0, 0, fun _ => 0, 0⟩], [1]⟩ : Batch).requests.length ≤ 10
        ∧ (⟨0, [⟨2, 0, 0, 2, 0, 0, fun _ => 0, 0⟩], [1]⟩ : Batch).requests.length
          = (⟨0, [⟨2, 0, 0, 2, 0, 0, fun _ => 0, 0⟩], [1]⟩ : Batch).num_tokens.length) := by
  have hvtc : vtcGetNextBatch ⟨10, 100, 10, 1, 1, 0⟩ (fun _ _ => true) (fun _ => 1)
      ⟨[⟨1, 0, 0, 2, 0, 0, fun _ => 0, 0⟩], [], [], []⟩
      = (some ⟨0, [⟨1, 0, 0, 2, 0, 0, fun _ => 0, 0⟩], [1]⟩, ⟨[], [], [1], []⟩) := rfl
  have hp : sarathiPreLoop ⟨10, 100, 10, 1, 1, 0⟩ (fun _ _ => true) (fun _ _ _ => 1) false
      [] [] [⟨2, 0, 0, 2, 0, 0, fun _ => 0, 0⟩] [] [] [] [] 0 []
      = ⟨[], [], [], [], [], [], [⟨2, 0, 0, 2, 0, 0, fun _ => 0, 0⟩], 0, []⟩ := by
    rw [sarathiPreLoop.eq_def]
  have hq1 : sarathiQueueLoop ⟨10, 100, 10, 1, 1, 0⟩ (fun _ _ => true) (fun _ _ _ => 1) []
      [] [⟨2, 0, 0, 2, 0, 0, fun _ => 0, 0⟩] [] [] [] [] false 0
      = sarathiQueueLoop ⟨10, 100, 10, 1, 1, 0⟩ (fun _ _ => true) (fun _ _ _ => 1) []
        [] [] [2] [⟨2, 0, 0, 2, 0, 0, fun _ => 0, 0⟩] [1] [] true 1 := by
    rw [sarathiQueueLoop.eq_def]
    norm_num [List.isEmpty]
    dsimp only [sarathiSelect, scanMinIdx, scanMinAux, List.nil_append, keyOf,
      List.getD, List.get?, Option.getD, List.eraseIdx, List.length]
    rfl
  have hq2 : sarathiQueueLoop ⟨10, 100, 10, 1, 1, 0⟩ (fun _ _ => true) (fun _ _ _ => 1) []
      [] [] [2] [⟨2, 0, 0, 2, 0, 0, fun _ => 0, 0⟩] [1] [] true 1
      = ⟨[⟨2, 0, 0, 2, 0, 0, fun _ => 0, 0⟩], [1], [], [], [], [2], 1, true⟩ := by
    rw [sarathiQueueLoop.eq_def]
    rfl
  have hsar : sarathiGetNextBatch ⟨10, 100, 10, 1, 1, 0⟩ (fun _ _ => true) (fun _ _ _ => 1)
      ⟨[⟨2, 0, 0, 2, 0, 0, fun _ => 0, 0⟩], [], [], []⟩
      = (some ⟨0, [⟨2, 0, 0, 2, 0, 0, fun _ => 0, 0⟩], [1]⟩, ⟨[], [], [2], []⟩) := by
    rw [sarathiGetNextBatch]
    dsimp only
    rw [hp]
    dsimp only
    rw [hq1, hq2]
    rfl
  refine ⟨?_, ?_, ?_, ?_⟩
  · exact (c3_amended.1 ⟨10, 100, 10, 1, 1, 0⟩ (fun _ _ => true) (fun _ => 1)
      [0, 1] _ [] [] [] [] (by decide) (by decide) rfl (fun h => absurd rfl h)).1
  · exact c3_amended.2.1 ⟨10, 1, 10, 1, 1, 0⟩ (fun _ _ => true) (fun _ => 1) []
      _ [1] [] [] [] [] (by decide) rfl
  · exact c3_amended.2.2.1 ⟨10, 100, 10, 1, 1, 0⟩ (fun _ _ => true) (fun _ => 1)
      ⟨[⟨1, 0, 0, 2, 0, 0, fun _ => 0, 0⟩], [], [], []⟩ _ _ (by decide) hvtc
  · exact c3_amended.2.2.2 ⟨10, 100, 10, 1, 1, 0⟩ (fun _ _ => true) (fun _ _ _ => 1)
      ⟨[⟨2, 0, 0, 2, 0, 0, fun _ => 0, 0⟩], [], [], []⟩ _ _ hsar

theorem keyLe_total (a b : ℚ × ℚ) : keyLe a b ∨ keyLe b a := by
  unfold keyLe
  rcases lt_trichotomy a.1 b.1 with h | h | h
  · exact Or.inl (Or.inl h)
  · rcases le_total a.2 b.2 with h2 | h2
    · exact Or.inl (Or.inr ⟨h, h2⟩)
    · exact Or.inr (Or.inr ⟨h.symm, h2⟩)
  · exact Or.inr (Or.inl h)

theorem keyLe_trans (a b c : ℚ × ℚ) (h1 : keyLe a b) (h2 : keyLe b c) : keyLe a c := by
  unfold keyLe at h1 h2 ⊢
  rcases h1 with h1 | ⟨h1, h1a⟩ <;> rcases h2 with h2 | ⟨h2, h2a⟩
  · exact Or.inl (lt_trans h1 h2)
  · exact Or.inl (by rw [← h2]; exact h1)
  · exact Or.inl (by rw [h1]; exact h2)
  · exact Or.inr ⟨h1.trans h2, h1a.trans h2a⟩

/-- C9: in the chunked scheduler a candidate whose negotiated chunk size is
zero is deferred to the `skipped` list (both in the preempted pass and in the
joint waiting-queue pass) and the loop continues; at the end of every tick
the new preempted pool is exactly the stable sort by fairness key
`(counter(client_id), arrived_at)` of `skipped ++ running_prefills ++
remaining preempted`, which is a permutation of that merge, sorted ascending
by the key. -/
theorem c9_zero_chunk_deferral_and_resort :
    (∀ (cfg : SchedConfig) (canAlloc : AllocMap → Request → Bool)
        (nextTokensC : Request → Bool → ℤ → ℤ) (contains_prefill : Bool)
        (request : Request) (pRest : List Request) (alloc : AllocMap)
        (queue reqs : List Request) (toks : List ℤ) (skipped running : List Request)
        (nbt : ℤ) (freed : List ℕ),
        reqs.length ≠ cfg.max_micro_batch_size →
        request.prefillDone = true →
        nextTokensC request contains_prefill nbt = 0 →
        sarathiPreLoop cfg canAlloc nextTokensC contains_prefill (request :: pRest)
            alloc queue reqs toks skipped running nbt freed
          = sarathiPreLoop cfg canAlloc nextTokensC contains_prefill pRest
              alloc queue reqs toks (skipped ++ [request]) running nbt freed)
    ∧ (∀ (cfg : SchedConfig) (canAlloc : AllocMap → Request → Bool)
        (nextTokensC : Request → Bool → ℤ → ℤ) (vc : VCounters)
        (running queue : List Request) (alloc : AllocMap) (reqs : List Request)
        (toks : List ℤ) (skipped : List Request) (contains_prefill : Bool) (nbt : ℤ)
        (request : Request) (is_running : Bool) (running' queue' : List Request),
        sarathiSelect vc running queue = some (request, is_running, running', queue') →
        alloc.length ≠ cfg.batch_size_cap →
        reqs.length ≠ cfg.max_micro_batch_size →
        (! is_running && ! canAlloc alloc request) = false →
        nextTokensC request contains_prefill nbt = 0 →
        sarathiQueueLoop cfg canAlloc nextTokensC vc running queue alloc reqs toks
            skipped contains_prefill nbt
          = sarathiQueueLoop cfg canAlloc nextTokensC vc running' queue' alloc reqs
              toks (skipped ++ [request]) contains_prefill nbt)
    ∧ (∀ (vc : VCounters) (l : List Request),
        (sarathiSortPool vc l).Perm l
        ∧ List.Sorted (fun a b => keyLe (keyOf vc a) (keyOf vc b)) (sarathiSortPool vc l))
    ∧ (∀ (cfg : SchedConfig) (canAlloc : AllocMap → Request → Bool)
        (nextTokensC : Request → Bool → ℤ → ℤ) (st : SarathiState),
        (sarathiGetNextBatch cfg canAlloc nextTokensC st).2.preempted
          = sarathiSortPool st.counters
              ((sarathiQueueLoop cfg canAlloc nextTokensC st.counters
                  (sarathiPreLoop cfg canAlloc nextTokensC false st.preempted st.alloc
                    st.queue [] [] [] [] 0 []).running
                  (sarathiPreLoop cfg canAlloc nextTokensC false st.preempted st.alloc
                    st.queue [] [] [] [] 0 []).queue
                  (sarathiPreLoop cfg canAlloc nextTokensC false st.preempted st.alloc
                    st.queue [] [] [] [] 0 []).alloc
                  (sarathiPreLoop cfg canAlloc nextTokensC false st.preempted st.alloc
                    st.queue [] [] [] [] 0 []).reqs
                  (sarathiPreLoop cfg canAlloc nextTokensC false st.preempted st.alloc
                    st.queue [] [] [] [] 0 []).toks
                  (sarathiPreLoop cfg canAlloc nextTokensC false st.preempted st.alloc
                    st.queue [] [] [] [] 0 []).skipped
                  false
                  (sarathiPreLoop cfg canAlloc nextTokensC false st.preempted st.alloc
                    st.queue [] [] [] [] 0 []).num_batch_tokens).skipped
                ++ (sarathiQueueLoop cfg canAlloc nextTokensC st.counters
                    (sarathiPreLoop cfg canAlloc nextTokensC false st.preempted st.alloc
                      st.queue [] [] [] [] 0 []).running
                    (sarathiPreLoop cfg canAlloc nextTokensC false st.preempted st.alloc
                      st.queue [] [] [] [] 0 []).queue
                    (sarathiPreLoop cfg canAlloc nextTokensC false st.preempted st.alloc
                      st.queue [] [] [] [] 0 []).alloc
                    (sarathiPreLoop cfg canAlloc nextTokensC false st.preempted st.alloc
                      st.queue [] [] [] [] 0 []).reqs
                    (sarathiPreLoop cfg canAlloc nextTokensC false st.preempted st.alloc
                      st.queue [] [] [] [] 0 []).toks
                    (sarathiPreLoop cfg canAlloc nextTokensC false st.preempted st.alloc
                      st.queue [] [] [] [] 0 []).skipped
                    false
                    (sarathiPreLoop cfg canAlloc nextTokensC false st.preempted st.alloc
                      st.queue [] [] [] [] 0 []).num_batch_tokens).running
                ++ (sarathiPreLoop cfg canAlloc nextTokensC false st.preempted st.alloc
                    st.queue [] [] [] [] 0 []).preempted)) := by
  refine ⟨?_, ?_, ?_, ?_⟩
  · intro cfg canAlloc nextTokensC contains_prefill request pRest alloc queue reqs toks
      skipped running nbt freed hmic hpre hnt
    rw [sarathiPreLoop]
    dsimp only
    rw [if_neg hmic]
    rw [if_neg (by simp [hpre])]
    rw [if_pos hnt]
  · intro cfg canAlloc nextTokensC vc running queue alloc reqs toks skipped
      contains_prefill nbt request is_running running' queue' hsel hcap hmic hgo hnt
    have hne : (running.isEmpty && queue.isEmpty) = false := by
      rcases hrun : running with _ | _
      · rcases hque : queue with _ | _
        · rw [hrun, hque] at hsel
          simp [sarathiSelect, scanMinIdx] at hsel
        · simp
      · simp
    rw [sarathiQueueLoop]
    rw [if_neg (by simp [hne]), if_neg hcap, if_neg hmic]
    split
    · rename_i heq
      rw [hsel] at heq
      cases heq
    · rename_i r3 b3 rn3 qu3 heq
      rw [hsel] at heq
      simp only [Option.some.injEq, Prod.mk.injEq] at heq
      obtain ⟨e1, e2, e3, e4⟩ := heq
      subst e1; subst e2; subst e3; subst e4
      rw [if_neg (by simp [hgo])]
      rw [if_pos hnt]
  · intro vc l
    constructor
    · exact List.perm_insertionSort _ l
    · have ht : IsTotal Request (fun a b => keyLe (keyOf vc a) (keyOf vc b)) :=
        ⟨fun a b => keyLe_total _ _⟩
      have htr : IsTrans Request (fun a b => keyLe (keyOf vc a) (keyOf vc b)) :=
        ⟨fun a b c => keyLe_trans _ _ _⟩
      exact @List.sorted_insertionSort _ _ _ ht htr l
  · intro cfg canAlloc nextTokensC st
    rfl

/-- Witness for C9 at concrete states: a prefill-complete preempted request
with a zero negotiated chunk is moved to `skipped` by the preempted pass; a
selected waiting request with a zero chunk is moved to `skipped` by the
queue pass. -/
theorem c9_zero_chunk_deferral_and_resort_witness :
    sarathiPreLoop ⟨10, 100, 10, 1, 1, 0⟩ (fun _ _ => true) (fun _ _ _ => 0) false
        [⟨1, 0, 0, 2, 5, 0, fun _ => 0, 0⟩] [1] [] [] [] [] [] 0 []
      = sarathiPreLoop ⟨10, 100, 10, 1, 1, 0⟩ (fun _ _ => true) (fun _ _ _ => 0) false
          [] [1] [] [] [] ([] ++ [⟨1, 0, 0, 2, 5, 0, fun _ => 0, 0⟩]) [] 0 []
    ∧ sarathiQueueLoop ⟨10, 100, 10, 1, 1, 0⟩ (fun _ _ => true) (fun _ _ _ => 0) []
        [] [⟨2, 0, 3, 2, 0, 0, fun _ => 0, 0⟩] [] [] [] [] false 0
      = sarathiQueueLoop ⟨10, 100, 10, 1, 1, 0⟩ (fun _ _ => true) (fun _ _ _ => 0) []
          [] [] [] [] [] ([] ++ [⟨2, 0, 3, 2, 0, 0, fun _ => 0, 0⟩]) false 0 := by
  constructor
  · exact c9_zero_chunk_deferral_and_resort.1 ⟨10, 100, 10, 1, 1, 0⟩ (fun _ _ => true)
      (fun _ _ _ => 0) false ⟨1, 0, 0, 2, 5, 0, fun _ => 0, 0⟩ [] [1] [] [] [] [] [] 0 []
      (by decide) (by decide) rfl
  · exact c9_zero_chunk_deferral_and_resort.2.1 ⟨10, 100, 10, 1, 1, 0⟩ (fun _ _ => true)
      (fun _ _ _ => 0) [] [] [⟨2, 0, 3, 2, 0, 0, fun _ => 0, 0⟩] [] [] [] [] false 0
      ⟨2, 0, 3, 2, 0, 0, fun _ => 0, 0⟩ false [] [] rfl (by decide) (by decide)
      (by decide) rfl

/-- C10: `FairServiceCalculator.calculate_service_for_request` reads
`self.request`, an attribute no code path ever assigns (construction fills
only `_config`), so for every request argument it raises `AttributeError`
and never returns a value. -/
theorem c10_calculator_attribute_error (cfg : FairServiceCalculatorConfig) (r : Request) :
    (FairServiceCalculator.init cfg).calcServiceForRequest r
      = Except.error "AttributeError" := rfl

end VTCSched
